import Mathlib

/-!
# Verification of the requirements-manifest line splitter and trivia stripper

Shallow embedding of `crates/puffin-requirements/src/lib.rs`:

* `strip_trivia`      — `RequirementLine::strip_trivia`
* `find_newline`      — the free function `find_newline`
* `nextF`/`eatContF`  — `RequirementsIterator::next` (fuel-indexed; the fuel
  only bounds the recursion depth and is proved sufficient below)
* `linesFromF`        — repeated calls of `next`, i.e. draining the iterator
* `from_str`          — `Requirements::from_str`, with the external PEP 508
  specifier parser abstracted as a function argument

Texts are embedded as `List Char`.  All byte offsets computed by the code
(`memchr`, `str::find`, slice bounds) land on ASCII delimiter bytes, which in
UTF-8 can never occur inside a multi-byte character, so character offsets into
the character list coincide with the code's byte offsets on ASCII input and cut
at exactly the same places on any input; slicing a `List Char` at such an
offset extracts the same text as slicing the `str` at the corresponding byte
offset.

Rust operations that can panic (out-of-range string slicing; the
`self.text.len() - 1` underflow is modelled as release-mode wrapping
arithmetic) are made explicit: `strip_trivia` returns `Option Nat` where
`none` means the slice index was out of bounds and the program panics.
-/

/-- Rust `char::is_whitespace`: the Unicode `White_Space` property. -/
def rustIsWhitespace (c : Char) : Bool :=
  let n := c.toNat
  decide (9 ≤ n ∧ n ≤ 13) || decide (n = 32) || decide (n = 133) ||
  decide (n = 160) || decide (n = 5760) || decide (8192 ≤ n ∧ n ≤ 8202) ||
  decide (n = 8232) || decide (n = 8233) || decide (n = 8239) ||
  decide (n = 8287) || decide (n = 12288)

/-- Rust `str::trim_start`: drop leading whitespace. -/
def trimStart (s : List Char) : List Char := s.dropWhile rustIsWhitespace

/-- Rust `str::trim`: drop leading and trailing whitespace. -/
def rustTrim (s : List Char) : List Char :=
  ((s.dropWhile rustIsWhitespace).reverse.dropWhile rustIsWhitespace).reverse

/-- Rust `s.starts_with(c)` for a `char` pattern. -/
def startsWithChar (c : Char) (s : List Char) : Bool :=
  match s with
  | [] => false
  | x :: _ => x == c

/-- `memchr_iter(b'#', ..)`: the offsets of every `'#'`, in increasing order. -/
def hashPositions : List Char → List Nat
  | [] => []
  | c :: cs =>
    if c == '#' then 0 :: (hashPositions cs).map (· + 1)
    else (hashPositions cs).map (· + 1)

/-- The comment-stripping loop of `RequirementLine::strip_trivia`.

For each `#` offset `position` the code evaluates
`requirement[..len + position].chars().rev().next().is_some_and(char::is_whitespace)`
and, on success, sets `len = position` and breaks.  Rust slicing
`requirement[..len + position]` panics when `len + position` exceeds the
string length; the `none` result models that panic. -/
def commentLoop (requirement : List Char) (len : Nat) : List Nat → Option Nat
  | [] => some len
  | position :: rest =>
    if len + position ≤ requirement.length then
      if (requirement.take (len + position)).getLast?.any rustIsWhitespace then
        some position
      else
        commentLoop requirement len rest
    else
      none

/-- The literal pattern `--hash` searched for by `strip_trivia`. -/
def HASHPAT : List Char := ['-', '-', 'h', 'a', 's', 'h']

/-- Rust `str::find` for a literal pattern: offset of the first occurrence. -/
def findSub (pat : List Char) : List Char → Option Nat
  | [] => if pat.isEmpty then some 0 else none
  | c :: cs =>
    if pat.isPrefixOf (c :: cs) then some 0
    else (findSub pat cs).map (· + 1)

/-- `RequirementLine::strip_trivia`: starting from `len = requirement.len()`,
run the comment loop over every `#` offset, then truncate at the first
occurrence of `--hash` inside `requirement[..len]`.  `none` models the panic
of the out-of-bounds slice inside the comment loop. -/
def strip_trivia (requirement : List Char) : Option Nat :=
  match commentLoop requirement requirement.length (hashPositions requirement) with
  | none => none
  | some len =>
    match findSub HASHPAT (requirement.take len) with
    | some index => some index
    | none => some len

/-- `memchr2(b'\n', b'\r', ..)`: offset of the first `'\n'` or `'\r'`. -/
def memchr2nl : List Char → Option Nat
  | [] => none
  | c :: cs =>
    if c == '\n' || c == '\r' then some 0
    else (memchr2nl cs).map (· + 1)

/-- The free function `find_newline`: position and width of the first line
break.  A `'\r'` immediately followed by `'\n'` has width 2, anything else
width 1. -/
def find_newline (text : List Char) : Option (Nat × Nat) :=
  match memchr2nl text with
  | none => none
  | some position =>
    if text[position]? = some '\n' then some (position, 1)
    else if text[position + 1]? = some '\n' then some (position, 2)
    else some (position, 1)

/-- `usize::MAX`. -/
def USIZE_MAX : Nat := 18446744073709551615

/-- The expression `self.text.len() - 1` on a `usize`, with release-mode
wrapping semantics at zero (for `n ≥ 1` it is the plain decrement). -/
def wrapSub1 (n : Nat) : Nat := if n = 0 then USIZE_MAX else n - 1

/-- The `while let Some((start, length)) = find_newline(..)` loop of
`RequirementsIterator::next` that eats backslash-continued lines.  `acc` is
the accumulating `line` buffer; the result is the finished buffer together
with the new cursor.  The fuel only bounds the number of iterations and is
proved sufficient (`eatContF_isSome`).

A note on `(text.drop index).take (start - 1)` (the slice
`self.text[self.index .. self.index + start - 1]`): the branch is guarded by
the character before the line break being `'\\'`, which for `start = 0` is the
final character of the line break the loop just consumed — never `'\\'` — so
`start ≥ 1` whenever the slice is taken and the truncated subtraction agrees
with the code. -/
def eatContF : Nat → List Char → Nat → List Char → Option (List Char × Nat)
  | 0, _, _, _ => none
  | fuel + 1, text, index, acc =>
    match find_newline (text.drop index) with
    | none => some (acc, index)
    | some (start, length) =>
      if (text.take (index + start)).getLast? = some '\\' then
        eatContF fuel text (index + start + length)
          (acc ++ (text.drop index).take (start - 1))
      else
        some (acc ++ (text.drop index).take start, index + start + length)

/-- `RequirementsIterator::next`, returning the raw logical-line text (before
`RequirementLine::from_line` is applied) and the new cursor; `some none` is
the iterator's `None`.  The outer `Option` is fuel exhaustion, proved
unreachable for fuel `text.length + 1` (`nextF_isSome`). -/
def nextF : Nat → List Char → Nat → Option (Option (List Char × Nat))
  | 0, _, _ => none
  | fuel + 1, text, index =>
    if index = wrapSub1 text.length then
      some none
    else
      match find_newline (text.drop index) with
      | none =>
        let line := text.drop index
        if startsWithChar '#' (trimStart line) then some none
        else if (rustTrim line).isEmpty then some none
        else some (some (line, wrapSub1 text.length))
      | some (start, length) =>
        if startsWithChar '#' (trimStart (text.drop index)) then
          nextF fuel text (index + start + length)
        else if (rustTrim ((text.drop index).take start)).isEmpty then
          nextF fuel text (index + start + length)
        else if (text.take (index + start)).getLast? = some '\\' then
          match eatContF fuel text (index + start + length)
              ((text.drop index).take (start - 1)) with
          | none => none
          | some (line, index1) => some (some (line, index1))
        else
          some (some ((text.drop index).take start, index + start + length))

/-- `next` with its canonical, provably sufficient fuel. -/
def next (text : List Char) (index : Nat) : Option (List Char × Nat) :=
  (nextF (text.length + 1) text index).getD none

/-- Draining the iterator: the list of raw logical lines produced from cursor
`index` on.  Fuel-indexed; fuel `text.length + 2` is proved sufficient. -/
def linesFromF : Nat → List Char → Nat → Option (List (List Char))
  | 0, _, _ => none
  | fuel + 1, text, index =>
    match next text index with
    | none => some []
    | some (line, index1) => (linesFromF fuel text index1).map (line :: ·)

/-- The raw logical lines of a manifest from cursor `index`. -/
def linesW (text : List Char) (index : Nat) : List (List Char) :=
  (linesFromF (text.length + 2) text index).getD []

/-- The raw logical lines of a manifest (iterator started at cursor 0). -/
def linesRes (text : List Char) : List (List Char) := linesW text 0

/-- `RequirementLine`: the logical line plus the clean-span length computed by
`strip_trivia`. -/
structure RequirementLine where
  line : List Char
  len : Nat
  deriving Repr, DecidableEq

/-- `RequirementLine::from_line`; `none` models the `strip_trivia` panic. -/
def from_line (line : List Char) : Option RequirementLine :=
  (strip_trivia line).map (fun len => ⟨line, len⟩)

/-- `RequirementLine::as_str`: the clean span `line[..len]`. -/
def RequirementLine.as_str (r : RequirementLine) : List Char := r.line.take r.len

/-- The `map (Requirement::from_str) ... collect::<Result<..>>` pipeline over
the logical lines, with the external specifier parser abstract.  For each line
in order: `from_line` (whose `strip_trivia` may panic — outer `Except.error ()`),
then the parser (whose first error aborts — inner `Except.error e`); later
lines are not visited after a failure, matching the short-circuiting
`collect`. -/
def fromStrGo {E R : Type} (parse : List Char → Except E R) :
    List (List Char) → Except Unit (Except E (List R))
  | [] => Except.ok (Except.ok [])
  | l :: rest =>
    match from_line l with
    | none => Except.error ()
    | some r =>
      match parse r.as_str with
      | Except.error e => Except.ok (Except.error e)
      | Except.ok v =>
        match fromStrGo parse rest with
        | Except.error u => Except.error u
        | Except.ok (Except.error e) => Except.ok (Except.error e)
        | Except.ok (Except.ok vs) => Except.ok (Except.ok (v :: vs))

/-- `Requirements::from_str` with the external specifier parser abstracted:
split the manifest into logical lines, strip each, parse each, fail fast. -/
def from_str {E R : Type} (parse : List Char → Except E R) (text : List Char) :
    Except Unit (Except E (List R)) :=
  fromStrGo parse (linesRes text)

/-- A text with no line break characters. -/
def breakFree (s : List Char) : Bool := s.all (fun c => !(c == '\n' || c == '\r'))

/-- The continuation-eating loop with canonical fuel. -/
def eatContW (t : List Char) (i : Nat) (acc : List Char) : List Char × Nat :=
  (eatContF (t.length + 1) t i acc).getD (acc, i)

/-- A trivia physical line: break-free and either fully commented (first
non-whitespace character `#`) or blank (whitespace only). -/
def triviaLine (l : List Char) : Bool :=
  breakFree l && (startsWithChar '#' (trimStart l) || (rustTrim l).isEmpty)

/-- A manifest made of `'\n'`-terminated physical lines `ls` followed by a
final unterminated remainder `fin`. -/
def manifestOf (ls : List (List Char)) (fin : List Char) : List Char :=
  (ls.map (fun l => l ++ ['\n'])).flatten ++ fin

/-- The tail of a continuation chain: every fragment but the last is written
with a trailing backslash before its `'\n'`; the final physical line is
terminated by a plain `'\n'`. -/
def chainTail : List (List Char) → List Char
  | [] => []
  | [last] => last ++ ['\n']
  | f :: g :: rest => f ++ '\\' :: '\n' :: chainTail (g :: rest)

/-- A whole continuation-chain manifest: the first fragment with a trailing
backslash, then the chain tail. -/
def chainText (first : List Char) (rest : List (List Char)) : List Char :=
  first ++ '\\' :: '\n' :: chainTail rest

/-- Strip every logical line, failing on the first `strip_trivia` panic. -/
def stripAll : List (List Char) → Option (List (List Char))
  | [] => some []
  | l :: rest =>
    match from_line l with
    | none => none
    | some r => (stripAll rest).map (fun ss => r.as_str :: ss)

/-- Reference fail-fast parse of a list of clean specifier strings: the first
parser error is the overall result, otherwise the ordered list of results. -/
def mapExcept {E R : Type} (parse : List Char → Except E R) :
    List (List Char) → Except E (List R)
  | [] => Except.ok []
  | s :: rest =>
    match parse s with
    | Except.error e => Except.error e
    | Except.ok v =>
      match mapExcept parse rest with
      | Except.error e => Except.error e
      | Except.ok vs => Except.ok (v :: vs)

/-- Replace every line break (`"\r\n"` pair or bare `'\r'`) by `'\n'`. -/
def normEOL : List Char → List Char
  | [] => []
  | '\r' :: '\n' :: rest => '\n' :: normEOL rest
  | '\r' :: rest => '\n' :: normEOL rest
  | c :: rest => c :: normEOL rest

theorem breakFree_iff (s : List Char) :
    breakFree s = true ↔ ∀ c ∈ s, c ≠ '\n' ∧ c ≠ '\r' := by
  simp [breakFree, List.all_eq_true]

theorem getLast?_take (l : List Char) (k : Nat) (h1 : 1 ≤ k) (h2 : k ≤ l.length) :
    (l.take k).getLast? = l[k - 1]? := by
  rw [List.getLast?_eq_getElem?, List.length_take, List.getElem?_take]
  have hm : min k l.length = k := Nat.min_eq_left h2
  rw [hm, if_pos (by omega)]

theorem getLast?_take_drop (t : List Char) (i st : Nat) (h1 : 1 ≤ st)
    (h2 : st ≤ t.length - i) :
    (t.take (i + st)).getLast? = ((t.drop i).take st).getLast? := by
  have h3 : st ≤ (t.drop i).length := by rw [List.length_drop]; omega
  have h4 : 1 ≤ i + st := by omega
  have h5 : i + st ≤ t.length := by omega
  rw [getLast?_take t (i + st) h4 h5, getLast?_take (t.drop i) st h1 h3,
    List.getElem?_drop]
  congr 1
  omega

theorem memchr2nl_eq_none_iff (s : List Char) :
    memchr2nl s = none ↔ breakFree s = true := by
  induction s with
  | nil => simp [memchr2nl, breakFree]
  | cons c cs ih =>
    cases hc : (c == '\n' || c == '\r') with
    | true =>
      have hb : breakFree (c :: cs) = false := by
        simp only [breakFree, List.all_cons, hc]
        simp
      constructor
      · intro h; exact absurd h (by simp [memchr2nl, hc])
      · intro h; rw [hb] at h; exact absurd h (by simp)
    | false =>
      simp only [memchr2nl, hc, Bool.false_eq_true, if_false]
      rw [show breakFree (c :: cs) = breakFree cs by
        simp only [breakFree, List.all_cons, hc]
        simp]
      rw [← ih]
      cases h : memchr2nl cs <;> simp [h]

theorem memchr2nl_spec (s : List Char) (p : Nat) (h : memchr2nl s = some p) :
    p < s.length ∧ breakFree (s.take p) = true ∧
      (s[p]? = some '\n' ∨ s[p]? = some '\r') := by
  induction s generalizing p with
  | nil => simp [memchr2nl] at h
  | cons c cs ih =>
    cases hc : (c == '\n' || c == '\r') with
    | true =>
      have hp : p = 0 := by
        have h0 : memchr2nl (c :: cs) = some 0 := by simp [memchr2nl, hc]
        rw [h0] at h
        exact (Option.some.inj h).symm
      subst hp
      refine ⟨by simp, by simp [breakFree], ?_⟩
      rcases Bool.or_eq_true_iff.mp hc with h1 | h1
      · left; simp [show c = '\n' by simpa using h1]
      · right; simp [show c = '\r' by simpa using h1]
    | false =>
      rw [memchr2nl, hc] at h
      simp only [Bool.false_eq_true, if_false] at h
      cases hm : memchr2nl cs with
      | none => simp [hm] at h
      | some q =>
        rw [hm] at h
        have hp : p = q + 1 := by simpa using h.symm
        subst hp
        obtain ⟨h1, h2, h3⟩ := ih q hm
        refine ⟨by simp; omega, ?_, by simpa using h3⟩
        have ht : (c :: cs).take (q + 1) = c :: cs.take q := rfl
        rw [ht]
        simp only [breakFree, List.all_cons, Bool.and_eq_true] at h2 ⊢
        exact ⟨by simp [hc], h2⟩

theorem memchr2nl_append (a b : List Char) (h : breakFree a = true) :
    memchr2nl (a ++ b) = (memchr2nl b).map (· + a.length) := by
  induction a with
  | nil => cases hm : memchr2nl b <;> simp [hm]
  | cons c cs ih =>
    have hc : (c == '\n' || c == '\r') = false := by
      rw [breakFree_iff] at h
      have hcc := h c (by simp)
      simp [hcc.1, hcc.2]
    have hcs : breakFree cs = true := by
      rw [breakFree_iff] at h ⊢
      exact fun x hx => h x (by simp [hx])
    have hstep : memchr2nl (c :: (cs ++ b)) = (memchr2nl (cs ++ b)).map (· + 1) := by
      simp [memchr2nl, hc]
    rw [List.cons_append, hstep, ih hcs]
    cases hm : memchr2nl b with
    | none => rfl
    | some q =>
      show some (q + cs.length + 1) = some (q + (cs.length + 1))
      rw [Nat.add_assoc]

theorem find_newline_none_iff (s : List Char) :
    find_newline s = none ↔ breakFree s = true := by
  rw [← memchr2nl_eq_none_iff]
  unfold find_newline
  cases hm : memchr2nl s with
  | none => simp
  | some p =>
    simp only
    constructor
    · intro h
      by_cases h1 : s[p]? = some '\n'
      · rw [if_pos h1] at h; exact absurd h (by simp)
      · rw [if_neg h1] at h
        by_cases h2 : s[p + 1]? = some '\n'
        · rw [if_pos h2] at h; exact absurd h (by simp)
        · rw [if_neg h2] at h; exact absurd h (by simp)
    · intro h; exact absurd h (by simp)

theorem find_newline_some (s : List Char) (st ln : Nat)
    (h : find_newline s = some (st, ln)) :
    st < s.length ∧ breakFree (s.take st) = true ∧ 1 ≤ ln ∧ st + ln ≤ s.length ∧
      ((s[st]? = some '\n' ∧ ln = 1) ∨
       (s[st]? = some '\r' ∧ s[st + 1]? = some '\n' ∧ ln = 2) ∨
       (s[st]? = some '\r' ∧ s[st + 1]? ≠ some '\n' ∧ ln = 1)) := by
  unfold find_newline at h
  cases hm : memchr2nl s with
  | none => simp [hm] at h
  | some p =>
    obtain ⟨hp, hbf, hchar⟩ := memchr2nl_spec s p hm
    rw [hm] at h
    simp only at h
    by_cases h1 : s[p]? = some '\n'
    · rw [if_pos h1] at h
      simp only [Option.some.injEq, Prod.mk.injEq] at h
      obtain ⟨rfl, rfl⟩ := h
      exact ⟨hp, hbf, by omega, by omega, Or.inl ⟨h1, rfl⟩⟩
    · rw [if_neg h1] at h
      have hr : s[p]? = some '\r' := by
        rcases hchar with hc | hc
        · exact absurd hc h1
        · exact hc
      by_cases h2 : s[p + 1]? = some '\n'
      · rw [if_pos h2] at h
        simp only [Option.some.injEq, Prod.mk.injEq] at h
        obtain ⟨rfl, rfl⟩ := h
        have hlt : p + 1 < s.length := by
          by_contra hcon
          rw [List.getElem?_eq_none (by omega)] at h2
          simp at h2
        exact ⟨hp, hbf, by omega, by omega, Or.inr (Or.inl ⟨hr, h2, rfl⟩)⟩
      · rw [if_neg h2] at h
        simp only [Option.some.injEq, Prod.mk.injEq] at h
        obtain ⟨rfl, rfl⟩ := h
        exact ⟨hp, hbf, by omega, by omega, Or.inr (Or.inr ⟨hr, h2, rfl⟩)⟩

theorem find_newline_append (a r : List Char) (h : breakFree a = true) :
    find_newline (a ++ '\n' :: r) = some (a.length, 1) := by
  have hm : memchr2nl (a ++ '\n' :: r) = some a.length := by
    rw [memchr2nl_append a ('\n' :: r) h]
    have h0 : memchr2nl ('\n' :: r) = some 0 := by simp [memchr2nl]
    rw [h0]
    simp
  have hg : (a ++ '\n' :: r)[a.length]? = some '\n' := by
    rw [List.getElem?_append]
    simp
  unfold find_newline
  rw [hm]
  simp [hg]

theorem eatContF_mono (f f' : Nat) (t : List Char) (i : Nat) (acc : List Char)
    (r : List Char × Nat) (hle : f ≤ f') (h : eatContF f t i acc = some r) :
    eatContF f' t i acc = some r := by
  induction f generalizing f' i acc r with
  | zero => simp [eatContF] at h
  | succ g ih =>
    obtain ⟨g', rfl⟩ : ∃ g', f' = g' + 1 := ⟨f' - 1, by omega⟩
    cases hfn : find_newline (t.drop i) with
    | none => simp only [eatContF, hfn] at h ⊢; exact h
    | some sl =>
      obtain ⟨st, ln⟩ := sl
      simp only [eatContF, hfn] at h ⊢
      by_cases hbs : (t.take (i + st)).getLast? = some '\\'
      · rw [if_pos hbs] at h ⊢
        exact ih g' _ _ _ (by omega) h
      · rw [if_neg hbs] at h ⊢
        exact h

theorem nextF_mono (f f' : Nat) (t : List Char) (i : Nat)
    (r : Option (List Char × Nat)) (hle : f ≤ f') (h : nextF f t i = some r) :
    nextF f' t i = some r := by
  induction f generalizing f' i r with
  | zero => simp [nextF] at h
  | succ g ih =>
    obtain ⟨g', rfl⟩ : ∃ g', f' = g' + 1 := ⟨f' - 1, by omega⟩
    by_cases hg : i = wrapSub1 t.length
    · simp only [nextF, if_pos hg] at h ⊢; exact h
    · cases hfn : find_newline (t.drop i) with
      | none => simp only [nextF, if_neg hg, hfn] at h ⊢; exact h
      | some sl =>
        obtain ⟨st, ln⟩ := sl
        simp only [nextF, if_neg hg, hfn] at h ⊢
        by_cases h1 : startsWithChar '#' (trimStart (t.drop i)) = true
        · rw [if_pos h1] at h ⊢
          exact ih g' _ _ (by omega) h
        · rw [if_neg h1] at h ⊢
          by_cases h2 : (rustTrim ((t.drop i).take st)).isEmpty = true
          · rw [if_pos h2] at h ⊢
            exact ih g' _ _ (by omega) h
          · rw [if_neg h2] at h ⊢
            by_cases h3 : (t.take (i + st)).getLast? = some '\\'
            · rw [if_pos h3] at h ⊢
              cases hec : eatContF g t (i + st + ln) ((t.drop i).take (st - 1)) with
              | none => rw [hec] at h; exact absurd h (by simp)
              | some p =>
                rw [hec] at h
                rw [eatContF_mono g g' t _ _ p (by omega) hec]
                exact h
            · rw [if_neg h3] at h ⊢
              exact h

theorem eatContF_isSome (f : Nat) (t : List Char) (i : Nat) (acc : List Char)
    (h : t.length - i < f) : (eatContF f t i acc).isSome := by
  induction f generalizing i acc with
  | zero => omega
  | succ g ih =>
    cases hfn : find_newline (t.drop i) with
    | none => simp [eatContF, hfn]
    | some sl =>
      obtain ⟨st, ln⟩ := sl
      obtain ⟨hlt, _, hln, hble, _⟩ := find_newline_some _ _ _ hfn
      rw [List.length_drop] at hlt hble
      simp only [eatContF, hfn]
      by_cases h3 : (t.take (i + st)).getLast? = some '\\'
      · rw [if_pos h3]
        exact ih _ _ (by omega)
      · rw [if_neg h3]; simp

theorem nextF_isSome (f : Nat) (t : List Char) (i : Nat)
    (h : t.length - i < f) : (nextF f t i).isSome := by
  induction f generalizing i with
  | zero => omega
  | succ g ih =>
    by_cases hg : i = wrapSub1 t.length
    · simp [nextF, hg]
    · cases hfn : find_newline (t.drop i) with
      | none =>
        simp only [nextF, if_neg hg, hfn]
        split
        · simp
        · split <;> simp
      | some sl =>
        obtain ⟨st, ln⟩ := sl
        obtain ⟨hlt, _, hln, hble, _⟩ := find_newline_some _ _ _ hfn
        rw [List.length_drop] at hlt hble
        have hrec : (nextF g t (i + st + ln)).isSome := ih _ (by omega)
        simp only [nextF, if_neg hg, hfn]
        split
        · exact hrec
        · split
          · exact hrec
          · split
            · cases he2 : eatContF g t (i + st + ln) ((t.drop i).take (st - 1)) with
              | none =>
                have hs := eatContF_isSome g t (i + st + ln)
                  ((t.drop i).take (st - 1)) (by omega)
                rw [he2] at hs
                simp at hs
              | some p => simp
            · simp

theorem next_eq (t : List Char) (i : Nat) :
    nextF (t.length + 1) t i = some (next t i) := by
  cases h : nextF (t.length + 1) t i with
  | none =>
    have hs := nextF_isSome (t.length + 1) t i (by omega)
    rw [h] at hs
    simp at hs
  | some v => simp [next, h]

theorem rustTrim_nil : rustTrim [] = [] := rfl

theorem eatContF_bounds (f : Nat) (t : List Char) (i : Nat) (acc l : List Char)
    (j : Nat) (h : eatContF f t i acc = some (l, j)) :
    i ≤ j ∧ (i ≤ t.length → j ≤ t.length) := by
  induction f generalizing i acc l j with
  | zero => simp [eatContF] at h
  | succ g ih =>
    cases hfn : find_newline (t.drop i) with
    | none =>
      simp only [eatContF, hfn] at h
      obtain ⟨rfl, rfl⟩ : acc = l ∧ i = j := by
        simpa [Prod.ext_iff] using h
      exact ⟨le_refl _, fun h => h⟩
    | some sl =>
      obtain ⟨st, ln⟩ := sl
      obtain ⟨hlt, _, hln, hble, _⟩ := find_newline_some _ _ _ hfn
      rw [List.length_drop] at hlt hble
      simp only [eatContF, hfn] at h
      by_cases h3 : (t.take (i + st)).getLast? = some '\\'
      · rw [if_pos h3] at h
        obtain ⟨ih1, ih2⟩ := ih _ _ _ _ h
        exact ⟨by omega, fun _ => ih2 (by omega)⟩
      · rw [if_neg h3] at h
        obtain ⟨rfl, rfl⟩ : acc ++ (t.drop i).take st = l ∧ i + st + ln = j := by
          simpa [Prod.ext_iff] using h
        exact ⟨by omega, fun _ => by omega⟩

theorem nextF_lt (f : Nat) (t : List Char) (i : Nat) (l : List Char) (j : Nat)
    (h : nextF f t i = some (some (l, j))) : i < j ∧ j ≤ t.length := by
  induction f generalizing i l j with
  | zero => simp [nextF] at h
  | succ g ih =>
    by_cases hg : i = wrapSub1 t.length
    · simp [nextF, hg] at h
    · cases hfn : find_newline (t.drop i) with
      | none =>
        simp only [nextF, if_neg hg, hfn] at h
        by_cases h1 : startsWithChar '#' (trimStart (t.drop i)) = true
        · rw [if_pos h1] at h; simp at h
        · rw [if_neg h1] at h
          by_cases h2 : (rustTrim (t.drop i)).isEmpty = true
          · rw [if_pos h2] at h; simp at h
          · rw [if_neg h2] at h
            have hne : t.drop i ≠ [] := by
              intro he
              rw [he, rustTrim_nil] at h2
              exact h2 rfl
            have hilt : i < t.length := by
              by_contra hc
              exact hne (List.drop_eq_nil_of_le (by omega))
            have hw : wrapSub1 t.length = t.length - 1 := by
              unfold wrapSub1
              rw [if_neg (by omega)]
            obtain ⟨-, rfl⟩ : t.drop i = l ∧ wrapSub1 t.length = j := by
              simpa [Prod.ext_iff] using h
            rw [hw] at hg ⊢
            omega
      | some sl =>
        obtain ⟨st, ln⟩ := sl
        obtain ⟨hlt, _, hln, hble, _⟩ := find_newline_some _ _ _ hfn
        rw [List.length_drop] at hlt hble
        simp only [nextF, if_neg hg, hfn] at h
        by_cases h1 : startsWithChar '#' (trimStart (t.drop i)) = true
        · rw [if_pos h1] at h
          obtain ⟨ih1, ih2⟩ := ih _ _ _ h
          exact ⟨by omega, ih2⟩
        · rw [if_neg h1] at h
          by_cases h2 : (rustTrim ((t.drop i).take st)).isEmpty = true
          · rw [if_pos h2] at h
            obtain ⟨ih1, ih2⟩ := ih _ _ _ h
            exact ⟨by omega, ih2⟩
          · rw [if_neg h2] at h
            by_cases h3 : (t.take (i + st)).getLast? = some '\\'
            · rw [if_pos h3] at h
              cases hec : eatContF g t (i + st + ln) ((t.drop i).take (st - 1)) with
              | none => rw [hec] at h; exact absurd h (by simp)
              | some p =>
                obtain ⟨l2, j2⟩ := p
                rw [hec] at h
                obtain ⟨rfl, rfl⟩ : l2 = l ∧ j2 = j := by
                  simpa [Prod.ext_iff] using h
                obtain ⟨hb1, hb2⟩ := eatContF_bounds _ _ _ _ _ _ hec
                exact ⟨by omega, hb2 (by omega)⟩
            · rw [if_neg h3] at h
              obtain ⟨-, rfl⟩ : (t.drop i).take st = l ∧ i + st + ln = j := by
                simpa [Prod.ext_iff] using h
              exact ⟨by omega, by omega⟩

theorem next_lt (t : List Char) (i : Nat) (l : List Char) (j : Nat)
    (h : next t i = some (l, j)) : i < j ∧ j ≤ t.length := by
  apply nextF_lt (t.length + 1) t i l j
  rw [next_eq, h]

theorem next_none_of_gt (t : List Char) (i : Nat) (h1 : t.length < i)
    (h2 : i ≠ wrapSub1 t.length) : next t i = none := by
  have hd : t.drop i = [] := List.drop_eq_nil_of_le (by omega)
  have hfn : find_newline (t.drop i) = none := by
    rw [hd]
    rfl
  have hfn2 : find_newline ([] : List Char) = none := rfl
  unfold next
  simp only [nextF, if_neg h2, hd, hfn2]
  simp [startsWithChar, trimStart, rustTrim_nil]

theorem linesFromF_mono (f f' : Nat) (t : List Char) (i : Nat)
    (r : List (List Char)) (hle : f ≤ f') (h : linesFromF f t i = some r) :
    linesFromF f' t i = some r := by
  induction f generalizing f' i r with
  | zero => simp [linesFromF] at h
  | succ g ih =>
    obtain ⟨g', rfl⟩ : ∃ g', f' = g' + 1 := ⟨f' - 1, by omega⟩
    cases hn : next t i with
    | none => simp only [linesFromF, hn] at h ⊢; exact h
    | some p =>
      obtain ⟨l, j⟩ := p
      simp only [linesFromF, hn] at h ⊢
      cases hrec : linesFromF g t j with
      | none => rw [hrec] at h; exact absurd h (by simp)
      | some v =>
        rw [hrec] at h
        rw [ih g' _ _ (by omega) hrec]
        exact h

theorem linesFromF_isSome (f : Nat) (t : List Char) (i : Nat)
    (h : t.length + 1 - i < f) : (linesFromF f t i).isSome := by
  induction f generalizing i with
  | zero => omega
  | succ g ih =>
    cases hn : next t i with
    | none => simp [linesFromF, hn]
    | some p =>
      obtain ⟨l, j⟩ := p
      obtain ⟨hij, hjle⟩ := next_lt t i l j hn
      simp only [linesFromF, hn]
      have := ih j (by omega)
      cases hrec : linesFromF g t j with
      | none => rw [hrec] at this; simp at this
      | some v => simp

theorem linesW_eq (t : List Char) (i : Nat) :
    linesFromF (t.length + 2) t i = some (linesW t i) := by
  cases h : linesFromF (t.length + 2) t i with
  | none =>
    have hs := linesFromF_isSome (t.length + 2) t i (by omega)
    rw [h] at hs
    simp at hs
  | some v => simp [linesW, h]

theorem linesFromF_succ (fu : Nat) (t : List Char) (i : Nat) :
    linesFromF (fu + 1) t i =
      match next t i with
      | none => some []
      | some p => (linesFromF fu t p.2).map (fun x => p.1 :: x) := by
  cases hn : next t i with
  | none => simp [linesFromF, hn]
  | some p =>
    obtain ⟨l, j⟩ := p
    simp [linesFromF, hn]

theorem linesW_unfold (t : List Char) (i : Nat) :
    linesW t i = match next t i with
      | none => []
      | some (l, j) => l :: linesW t j := by
  cases hn : next t i with
  | none =>
    show (linesFromF (t.length + 1 + 1) t i).getD [] = []
    rw [linesFromF_succ, hn]
    rfl
  | some p =>
    obtain ⟨l, j⟩ := p
    obtain ⟨hij, hjle⟩ := next_lt t i l j hn
    have h1 : (linesFromF (t.length + 1) t j).isSome :=
      linesFromF_isSome (t.length + 1) t j (by omega)
    cases h2 : linesFromF (t.length + 1) t j with
    | none => exact absurd h1 (by simp [h2])
    | some v =>
      have h3 : linesFromF (t.length + 2) t j = some v :=
        linesFromF_mono _ _ _ _ _ (by omega) h2
      have h4 : linesW t j = v := by simp [linesW, h3]
      show (linesFromF (t.length + 1 + 1) t i).getD [] = l :: linesW t j
      rw [linesFromF_succ, hn]
      show ((linesFromF (t.length + 1) t j).map (fun x => l :: x)).getD [] =
        l :: linesW t j
      rw [h2, h4]
      rfl

theorem eatContW_eq (t : List Char) (i : Nat) (acc : List Char) :
    eatContF (t.length + 1) t i acc = some (eatContW t i acc) := by
  cases h : eatContF (t.length + 1) t i acc with
  | none =>
    have hs := eatContF_isSome (t.length + 1) t i acc (by omega)
    rw [h] at hs; simp at hs
  | some v => simp [eatContW, h]

theorem eatContF_fuel_eq (t : List Char) (i : Nat) (acc : List Char)
    (h1 : 1 ≤ i) (h2 : 1 ≤ t.length) :
    eatContF t.length t i acc = some (eatContW t i acc) := by
  have hs := eatContF_isSome t.length t i acc (by omega)
  cases h : eatContF t.length t i acc with
  | none => rw [h] at hs; simp at hs
  | some v =>
    have hm := eatContF_mono t.length (t.length + 1) t i acc v (by omega) h
    rw [eatContW_eq] at hm
    rw [Option.some.inj hm]

theorem nextF_fuel_eq (t : List Char) (i : Nat) (h1 : 1 ≤ i)
    (h2 : 1 ≤ t.length) : nextF t.length t i = some (next t i) := by
  have hs := nextF_isSome t.length t i (by omega)
  cases h : nextF t.length t i with
  | none => rw [h] at hs; simp at hs
  | some v =>
    have hm := nextF_mono t.length (t.length + 1) t i v (by omega) h
    rw [next_eq] at hm
    rw [Option.some.inj hm]

theorem next_guard (t : List Char) (i : Nat) (hg : i = wrapSub1 t.length) :
    next t i = none := by
  unfold next
  simp [nextF, hg]

theorem next_skip_comment (t : List Char) (i st ln : Nat)
    (hg : i ≠ wrapSub1 t.length)
    (hfn : find_newline (t.drop i) = some (st, ln))
    (h1 : startsWithChar '#' (trimStart (t.drop i)) = true) :
    next t i = next t (i + st + ln) := by
  obtain ⟨hlt, _, hln, hble, _⟩ := find_newline_some _ _ _ hfn
  rw [List.length_drop] at hlt hble
  unfold next
  simp only [nextF, if_neg hg, hfn, if_pos h1]
  rw [nextF_fuel_eq t (i + st + ln) (by omega) (by omega)]
  rfl

theorem next_skip_blank (t : List Char) (i st ln : Nat)
    (hg : i ≠ wrapSub1 t.length)
    (hfn : find_newline (t.drop i) = some (st, ln))
    (h1 : startsWithChar '#' (trimStart (t.drop i)) = false)
    (h2 : (rustTrim ((t.drop i).take st)).isEmpty = true) :
    next t i = next t (i + st + ln) := by
  obtain ⟨hlt, _, hln, hble, _⟩ := find_newline_some _ _ _ hfn
  rw [List.length_drop] at hlt hble
  unfold next
  simp only [nextF, if_neg hg, hfn, h1, Bool.false_eq_true, if_false, if_pos h2]
  rw [nextF_fuel_eq t (i + st + ln) (by omega) (by omega)]
  rfl

theorem next_stop_final (t : List Char) (i : Nat)
    (hg : i ≠ wrapSub1 t.length)
    (hfn : find_newline (t.drop i) = none)
    (h : startsWithChar '#' (trimStart (t.drop i)) = true ∨
         (rustTrim (t.drop i)).isEmpty = true) :
    next t i = none := by
  unfold next
  rcases h with h1 | h1
  · simp only [nextF, if_neg hg, hfn, if_pos h1]
    rfl
  · simp only [nextF, if_neg hg, hfn]
    by_cases h2 : startsWithChar '#' (trimStart (t.drop i)) = true
    · rw [if_pos h2]; rfl
    · rw [if_neg h2, if_pos h1]; rfl

theorem next_emit_final (t : List Char) (i : Nat)
    (hg : i ≠ wrapSub1 t.length)
    (hfn : find_newline (t.drop i) = none)
    (h1 : startsWithChar '#' (trimStart (t.drop i)) = false)
    (h2 : (rustTrim (t.drop i)).isEmpty = false) :
    next t i = some (t.drop i, wrapSub1 t.length) := by
  unfold next
  simp only [nextF, if_neg hg, hfn, h1, h2, Bool.false_eq_true, if_false]
  rfl

theorem next_emit_simple (t : List Char) (i st ln : Nat)
    (hg : i ≠ wrapSub1 t.length)
    (hfn : find_newline (t.drop i) = some (st, ln))
    (h1 : startsWithChar '#' (trimStart (t.drop i)) = false)
    (h2 : (rustTrim ((t.drop i).take st)).isEmpty = false)
    (h3 : (t.take (i + st)).getLast? ≠ some '\\') :
    next t i = some ((t.drop i).take st, i + st + ln) := by
  unfold next
  simp only [nextF, if_neg hg, hfn, h1, h2, Bool.false_eq_true, if_false,
    if_neg h3]
  rfl

theorem next_emit_cont (t : List Char) (i st ln : Nat)
    (hg : i ≠ wrapSub1 t.length)
    (hfn : find_newline (t.drop i) = some (st, ln))
    (h1 : startsWithChar '#' (trimStart (t.drop i)) = false)
    (h2 : (rustTrim ((t.drop i).take st)).isEmpty = false)
    (h3 : (t.take (i + st)).getLast? = some '\\') :
    next t i = some (eatContW t (i + st + ln) ((t.drop i).take (st - 1))) := by
  obtain ⟨hlt, _, hln, hble, _⟩ := find_newline_some _ _ _ hfn
  rw [List.length_drop] at hlt hble
  unfold next
  simp only [nextF, if_neg hg, hfn, h1, h2, Bool.false_eq_true, if_false,
    if_pos h3]
  rw [eatContF_fuel_eq t (i + st + ln) _ (by omega) (by omega)]
  rfl

theorem eatContW_stop (t : List Char) (i : Nat) (acc : List Char)
    (hfn : find_newline (t.drop i) = none) :
    eatContW t i acc = (acc, i) := by
  unfold eatContW
  simp only [eatContF, hfn]
  rfl

theorem eatContW_cont (t : List Char) (i st ln : Nat) (acc : List Char)
    (hfn : find_newline (t.drop i) = some (st, ln))
    (h3 : (t.take (i + st)).getLast? = some '\\') :
    eatContW t i acc = eatContW t (i + st + ln) (acc ++ (t.drop i).take (st - 1)) := by
  obtain ⟨hlt, _, hln, hble, _⟩ := find_newline_some _ _ _ hfn
  rw [List.length_drop] at hlt hble
  unfold eatContW
  simp only [eatContF, hfn, if_pos h3]
  rw [eatContF_fuel_eq t (i + st + ln) _ (by omega) (by omega)]
  rfl

theorem eatContW_exit (t : List Char) (i st ln : Nat) (acc : List Char)
    (hfn : find_newline (t.drop i) = some (st, ln))
    (h3 : (t.take (i + st)).getLast? ≠ some '\\') :
    eatContW t i acc = (acc ++ (t.drop i).take st, i + st + ln) := by
  unfold eatContW
  simp only [eatContF, hfn, if_neg h3]
  rfl

/-- C1: the spec claims the Trivia Stripper and the Line Splitter's `next` are
total and never fail for any input.  The Line Splitter is indeed total (see
the termination claim), but `strip_trivia` panics — modelled as `none` —
on any line containing `'#'` at a positive offset, because
`requirement[..len + position]` with `len` still the full length slices out of
bounds; consequently building `Requirements` from the manifest `"a #"` ends in
a panic whatever the external parser does.  The in-code comment ("the comment
must be preceded by whitespace") and the spec document the intent; the `len +`
in the slice bound is the slip. -/
theorem c1_totality_code_bug :
    strip_trivia "a #".toList = none ∧
    ∀ (parse : List Char → Except Nat (List Char)),
      from_str parse "a #".toList = Except.error () := by
  refine ⟨by decide, fun parse => ?_⟩
  unfold from_str
  rw [show linesRes "a #".toList = ["a #".toList] from by decide]
  simp only [fromStrGo, show from_line "a #".toList = none from by decide]

/-- C2: the claimed comment rule (truncate at the first `#` iff the character
before it is whitespace; `#` at offset 0 never truncates) is not what the code
does.  `strip_trivia "x # y"` panics via the out-of-bounds slice
`requirement[..len + position]` instead of returning 2; for a `#` at offset 0
the code inspects the *last* character of the whole line, so `"# "` *is*
truncated to length 0 (while `"#x"` is not). -/
theorem c2_comment_rule_code_bug :
    strip_trivia "x # y".toList = none ∧
    strip_trivia "# ".toList = some 0 ∧
    strip_trivia "#x".toList = some 2 := by decide

/-- C3 as stated is false: the one-character manifest `"a"` is non-empty, has
no trailing line break, and is neither blank nor fully commented, yet the
splitter emits nothing — the `self.index == self.text.len() - 1` terminal
guard silently drops a one-character remainder. -/
theorem c3_cex :
    linesRes ['a'] = [] ∧ (['a'] : List Char) ≠ [] ∧
    find_newline ['a'] = none ∧
    startsWithChar '#' (trimStart ['a']) = false ∧
    (rustTrim ['a']).isEmpty = false := by decide

/-- C3 (amended): when at least **two** characters remain at the cursor and no
further line break exists, the non-blank non-commented remainder is emitted as
the final Logical Line and the iteration then stops; a one-character remainder
is silently dropped by the `len - 1` guard (`c3_cex`).  The `"flask==2.0"`
example still yields a collection with exactly one entry. -/
theorem c3_final_line (t : List Char) (i : Nat)
    (hfn : find_newline (t.drop i) = none)
    (hlen : 2 ≤ t.length - i)
    (h1 : startsWithChar '#' (trimStart (t.drop i)) = false)
    (h2 : (rustTrim (t.drop i)).isEmpty = false) :
    linesW t i = [t.drop i] ∧
    from_str (fun s => (Except.ok s : Except Nat (List Char)))
      "flask==2.0".toList = Except.ok (Except.ok ["flask==2.0".toList]) := by
  constructor
  · have hw : wrapSub1 t.length = t.length - 1 := by
      unfold wrapSub1
      rw [if_neg (by omega)]
    have hg : i ≠ wrapSub1 t.length := by rw [hw]; omega
    have hnext := next_emit_final t i hg hfn h1 h2
    have hstop : next t (wrapSub1 t.length) = none := next_guard t _ rfl
    rw [linesW_unfold t i, hnext]
    show t.drop i :: linesW t (wrapSub1 t.length) = [t.drop i]
    rw [linesW_unfold t (wrapSub1 t.length), hstop]
  · rfl

theorem c3_final_line_witness :
    linesW "flask==2.0".toList 0 = ["flask==2.0".toList] ∧
    from_str (fun s => (Except.ok s : Except Nat (List Char)))
      "flask==2.0".toList = Except.ok (Except.ok ["flask==2.0".toList]) := by
  have h := c3_final_line "flask==2.0".toList 0 (by decide) (by decide)
    (by decide) (by decide)
  simpa using h

/-- C4 as stated is false: in `"a\\\nb"` the chain's final physical line is
the unterminated remainder `b`, which the continuation-eating loop never
appends (its `while let` exits when `find_newline` fails, without consuming
the rest) — the emitted Logical Line is `a`, not `ab`. -/
theorem c4_cex :
    linesRes "a\\\nb".toList = [['a']] ∧
    linesRes "a\\\nb".toList ≠ [['a', 'b']] := by decide

/-- C5 as stated is false: in `"# x \\\nbar\n"` the chain's first physical
line is fully commented, but only that line is discarded — the second physical
line `bar` is emitted as its own Logical Line instead of the whole chain being
suppressed. -/
theorem c5_cex :
    linesRes "# x \\\nbar\n".toList = ["bar".toList] ∧
    "bar".toList ∈ linesRes "# x \\\nbar\n".toList := by decide

/-- C5 (amended): when the first physical line of a would-be chain is fully
commented, exactly that one physical line is discarded (even when it ends in
a backslash): the cursor moves past its line break and scanning resumes there,
processing the following lines independently. -/
theorem c5_comment_skip (t : List Char) (i st ln : Nat)
    (hg : i ≠ wrapSub1 t.length)
    (hfn : find_newline (t.drop i) = some (st, ln))
    (h1 : startsWithChar '#' (trimStart (t.drop i)) = true) :
    next t i = next t (i + st + ln) ∧ linesW t i = linesW t (i + st + ln) := by
  have h := next_skip_comment t i st ln hg hfn h1
  exact ⟨h, by rw [linesW_unfold t i, linesW_unfold t (i + st + ln), h]⟩

theorem c5_comment_skip_witness :
    next "# x \\\nbar\n".toList 0 = next "# x \\\nbar\n".toList 6 ∧
    linesW "# x \\\nbar\n".toList 0 = linesW "# x \\\nbar\n".toList 6 :=
  c5_comment_skip "# x \\\nbar\n".toList 0 5 1 (by decide) (by decide)
    (by decide)

/-- C6 as stated is false: on the manifest `"a #"` the trivia stripper panics
inside `next` before the external parser's verdict can be propagated, so the
build returns neither the parser's error nor a collection. -/
theorem c6_cex :
    from_str (fun _ => (Except.error 0 : Except Nat (List Char)))
      "a #".toList = Except.error () ∧
    from_str (fun _ => (Except.error 0 : Except Nat (List Char)))
      "a #".toList ≠ Except.ok (Except.error 0) := by
  have h1 : from_str (fun _ => (Except.error 0 : Except Nat (List Char)))
      "a #".toList = Except.error () := rfl
  refine ⟨h1, ?_⟩
  rw [h1]
  intro h
  exact Except.noConfusion h

/-- C10: termination of the iterator.  Fuel linear in the input length
suffices both for a single `next` call (`text.length + 1`) and for draining
the whole iterator (`text.length + 2`), and every emitted logical line
strictly advances the cursor by at least one position — so iteration over any
finite text is finite. -/
theorem c10_iterator_terminates (t : List Char) (i : Nat) :
    (nextF (t.length + 1) t i).isSome = true ∧
    (linesFromF (t.length + 2) t i).isSome = true ∧
    ∀ (l : List Char) (j : Nat), next t i = some (l, j) → i + 1 ≤ j := by
  refine ⟨nextF_isSome (t.length + 1) t i (by omega),
    linesFromF_isSome (t.length + 2) t i (by omega), ?_⟩
  intro l j h
  have := next_lt t i l j h
  omega

theorem c10_iterator_terminates_witness :
    (nextF ("a\nb".toList.length + 1) "a\nb".toList 0).isSome = true ∧
    0 + 1 ≤ 2 :=
  ⟨(c10_iterator_terminates "a\nb".toList 0).1,
   (c10_iterator_terminates "a\nb".toList 0).2.2 ['a'] 2 (by decide)⟩

theorem findSub_some (pat s : List Char) (i : Nat) (hne : pat ≠ [])
    (h : findSub pat s = some i) :
    pat.isPrefixOf (s.drop i) = true ∧
      ∀ j < i, pat.isPrefixOf (s.drop j) = false := by
  induction s generalizing i with
  | nil =>
    rw [findSub, if_neg (by simpa using hne)] at h
    exact absurd h (by simp)
  | cons c cs ih =>
    rw [findSub] at h
    by_cases hp : pat.isPrefixOf (c :: cs) = true
    · rw [if_pos hp] at h
      obtain rfl : i = 0 := by simpa using h.symm
      exact ⟨by simpa using hp, fun j hj => absurd hj (by omega)⟩
    · rw [if_neg hp] at h
      cases hf : findSub pat cs with
      | none => rw [hf] at h; exact absurd h (by simp)
      | some q =>
        rw [hf] at h
        obtain rfl : i = q + 1 := by simpa using h.symm
        obtain ⟨ih1, ih2⟩ := ih q hf
        refine ⟨by simpa using ih1, fun j hj => ?_⟩
        cases j with
        | zero =>
          simpa using eq_false_of_ne_true hp
        | succ j2 =>
          simpa using ih2 j2 (by omega)

theorem findSub_none (pat s : List Char) (hne : pat ≠ [])
    (h : findSub pat s = none) :
    ∀ j, pat.isPrefixOf (s.drop j) = false := by
  induction s with
  | nil =>
    intro j
    rw [List.drop_nil]
    cases pat with
    | nil => exact absurd rfl hne
    | cons p ps => rfl
  | cons c cs ih =>
    rw [findSub] at h
    by_cases hp : pat.isPrefixOf (c :: cs) = true
    · rw [if_pos hp] at h; exact absurd h (by simp)
    · rw [if_neg hp] at h
      have hf : findSub pat cs = none := by
        cases hx : findSub pat cs with
        | none => rfl
        | some q => rw [hx] at h; exact absurd h (by simp)
      intro j
      cases j with
      | zero => simpa using eq_false_of_ne_true hp
      | succ j2 => simpa using ih hf j2

/-- C8: hash-extras stripping.  Whenever the comment loop completes with
clean-span length `len` (no panic), `strip_trivia` returns the offset of the
first occurrence of the literal `--hash` inside `line[0..len]` — the least
offset at which `--hash` is a prefix of the rest of that prefix — and leaves
`len` unchanged when no occurrence exists. -/
theorem c8_hash_stripping (s : List Char) (len : Nat)
    (h : commentLoop s s.length (hashPositions s) = some len) :
    ∃ len2, strip_trivia s = some len2 ∧
      ((∃ i, HASHPAT.isPrefixOf ((s.take len).drop i) = true) →
        HASHPAT.isPrefixOf ((s.take len).drop len2) = true ∧
        ∀ j < len2, HASHPAT.isPrefixOf ((s.take len).drop j) = false) ∧
      ((∀ i, HASHPAT.isPrefixOf ((s.take len).drop i) = false) → len2 = len) := by
  have hmatch : strip_trivia s = match findSub HASHPAT (s.take len) with
      | some index => some index
      | none => some len := by
    unfold strip_trivia
    rw [h]
  cases hf : findSub HASHPAT (s.take len) with
  | none =>
    have hst : strip_trivia s = some len := by rw [hmatch, hf]
    refine ⟨len, hst, ?_, fun _ => rfl⟩
    rintro ⟨i, hi⟩
    have hn := findSub_none HASHPAT (s.take len) (by decide) hf i
    rw [hn] at hi
    exact absurd hi (by simp)
  | some idx =>
    have hst : strip_trivia s = some idx := by rw [hmatch, hf]
    obtain ⟨h1, h2⟩ := findSub_some HASHPAT (s.take len) idx (by decide) hf
    refine ⟨idx, hst, fun _ => ⟨h1, h2⟩, fun hall => ?_⟩
    have hx := hall idx
    rw [hx] at h1
    exact absurd h1 (by simp)

theorem c8_hash_stripping_witness :
    ∃ len2, strip_trivia "a --hash=x --hash=y".toList = some len2 ∧
      ((∃ i, HASHPAT.isPrefixOf (("a --hash=x --hash=y".toList.take 19).drop i) = true) →
        HASHPAT.isPrefixOf (("a --hash=x --hash=y".toList.take 19).drop len2) = true ∧
        ∀ j < len2, HASHPAT.isPrefixOf (("a --hash=x --hash=y".toList.take 19).drop j) = false) ∧
      ((∀ i, HASHPAT.isPrefixOf (("a --hash=x --hash=y".toList.take 19).drop i) = false) → len2 = 19) :=
  c8_hash_stripping "a --hash=x --hash=y".toList 19 (by decide)

theorem trimStart_append_of_ne (l x : List Char) (h : trimStart l ≠ []) :
    trimStart (l ++ x) = trimStart l ++ x := by
  unfold trimStart at *
  rw [List.dropWhile_append, if_neg]
  simpa using h

theorem startsWithChar_append (c : Char) (a x : List Char) (h : a ≠ []) :
    startsWithChar c (a ++ x) = startsWithChar c a := by
  cases a with
  | nil => exact absurd rfl h
  | cons b bs => rfl

theorem startsWithChar_trimStart_append (l rest : List Char)
    (h : startsWithChar '#' (trimStart l) = true) :
    startsWithChar '#' (trimStart (l ++ rest)) = true := by
  have hne : trimStart l ≠ [] := by
    intro he
    rw [he] at h
    exact absurd h (by simp [startsWithChar])
  rw [trimStart_append_of_ne l rest hne, startsWithChar_append _ _ _ hne]
  exact h

theorem linesW_trivia (t : List Char) (ls : List (List Char)) (fin : List Char)
    (hfin : triviaLine fin = true) :
    ∀ (i : Nat), (∀ l ∈ ls, triviaLine l = true) →
      t.drop i = manifestOf ls fin → linesW t i = [] := by
  induction ls with
  | nil =>
    intro i _ hd
    have hdf : t.drop i = fin := by simpa [manifestOf] using hd
    obtain ⟨hbf, hcb⟩ : breakFree fin = true ∧
        (startsWithChar '#' (trimStart fin) = true ∨
         (rustTrim fin).isEmpty = true) := by
      simpa [triviaLine, Bool.and_eq_true, Bool.or_eq_true] using hfin
    by_cases hg : i = wrapSub1 t.length
    · rw [linesW_unfold, next_guard t i hg]
    · have hfn : find_newline (t.drop i) = none := by
        rw [find_newline_none_iff, hdf]
        exact hbf
      have hstop : next t i = none := by
        apply next_stop_final t i hg hfn
        rw [hdf]
        exact hcb
      rw [linesW_unfold, hstop]
  | cons l ls ih =>
    intro i hls hd
    obtain ⟨hbl, hcl⟩ : breakFree l = true ∧
        (startsWithChar '#' (trimStart l) = true ∨
         (rustTrim l).isEmpty = true) := by
      simpa [triviaLine, Bool.and_eq_true, Bool.or_eq_true] using hls l (by simp)
    by_cases hg : i = wrapSub1 t.length
    · rw [linesW_unfold, next_guard t i hg]
    · have hdecomp : t.drop i = l ++ '\n' :: manifestOf ls fin := by
        rw [hd]
        simp [manifestOf, List.flatten_cons]
      have hfn : find_newline (t.drop i) = some (l.length, 1) := by
        rw [hdecomp]
        exact find_newline_append l _ hbl
      have hnext : next t i = next t (i + l.length + 1) := by
        by_cases hc : startsWithChar '#' (trimStart (t.drop i)) = true
        · exact next_skip_comment t i l.length 1 hg hfn hc
        · have htake : (t.drop i).take l.length = l := by
            rw [hdecomp]
            exact List.take_left l _
          have hb2 : (rustTrim ((t.drop i).take l.length)).isEmpty = true := by
            rw [htake]
            rcases hcl with hcl1 | hcl2
            · exfalso
              apply hc
              rw [hdecomp]
              exact startsWithChar_trimStart_append l _ hcl1
            · exact hcl2
          exact next_skip_blank t i l.length 1 hg hfn (eq_false_of_ne_true hc) hb2
      have hlw : linesW t i = linesW t (i + l.length + 1) := by
        rw [linesW_unfold t i, linesW_unfold t (i + l.length + 1), hnext]
      rw [hlw]
      apply ih (i + l.length + 1) (fun x hx => hls x (by simp [hx]))
      have h1 : t.drop (i + l.length + 1) = (t.drop i).drop (l.length + 1) := by
        rw [List.drop_drop, Nat.add_assoc]
      rw [h1, hdecomp,
        show l ++ '\n' :: manifestOf ls fin =
          (l ++ ['\n']) ++ manifestOf ls fin by simp,
        show l.length + 1 = (l ++ ['\n']).length by simp]
      exact List.drop_left _ _

/-- C7: a manifest consisting solely of `'\n'`-terminated blank or fully
commented physical lines, plus a blank-or-commented (possibly empty)
unterminated remainder, yields no logical lines, and building the collection
succeeds with the empty collection for every external parser.  In particular
`"# comment\n\n   \n"` gives an empty collection (see the witness). -/
theorem c7_trivia_only (ls : List (List Char)) (fin : List Char)
    (hls : ∀ l ∈ ls, triviaLine l = true)
    (hfin : triviaLine fin = true) :
    linesRes (manifestOf ls fin) = [] ∧
    ∀ {E R : Type} (parse : List Char → Except E R),
      from_str parse (manifestOf ls fin) = Except.ok (Except.ok []) := by
  have h0 : linesRes (manifestOf ls fin) = [] :=
    linesW_trivia (manifestOf ls fin) ls fin hfin 0 hls (by rw [List.drop_zero])
  refine ⟨h0, fun parse => ?_⟩
  unfold from_str
  rw [h0]
  rfl

theorem c7_trivia_only_witness :
    linesRes "# comment\n\n   \n".toList = [] ∧
    from_str (fun s => (Except.ok s : Except Nat (List Char)))
      "# comment\n\n   \n".toList = Except.ok (Except.ok []) := by
  have h := c7_trivia_only ["# comment".toList, [], "   ".toList] []
    (by decide) (by decide)
  have he : manifestOf ["# comment".toList, [], "   ".toList] [] =
      "# comment\n\n   \n".toList := by decide
  rw [he] at h
  exact ⟨h.1, h.2 (fun s => Except.ok s)⟩

theorem breakFree_append (a b : List Char) :
    breakFree (a ++ b) = (breakFree a && breakFree b) := by
  simp [breakFree, List.all_append]

theorem trimStart_concat_nonws_ne (l : List Char) (c : Char)
    (hc : rustIsWhitespace c = false) : trimStart (l ++ [c]) ≠ [] := by
  unfold trimStart
  rw [Ne, List.dropWhile_eq_nil_iff]
  intro hall
  have hca := hall c (by simp)
  rw [hc] at hca
  exact absurd hca (by simp)

theorem rustTrim_concat_nonws (l : List Char) (c : Char)
    (hc : rustIsWhitespace c = false) :
    (rustTrim (l ++ [c])).isEmpty = false := by
  unfold rustTrim
  rw [List.dropWhile_append]
  by_cases hl : (l.dropWhile rustIsWhitespace).isEmpty = true
  · rw [if_pos hl]
    simp [List.dropWhile_cons, hc]
  · rw [if_neg hl]
    have h1 : ((l.dropWhile rustIsWhitespace) ++ [c]).reverse =
        c :: (l.dropWhile rustIsWhitespace).reverse := by
      rw [List.reverse_append]
      rfl
    rw [h1, List.dropWhile_cons, if_neg (by simp [hc])]
    simp

theorem eatContW_chain (t : List Char) :
    ∀ (rest : List (List Char)) (i : Nat) (acc : List Char),
      rest ≠ [] →
      (∀ f ∈ rest, breakFree f = true) →
      (∀ lf, rest.getLast? = some lf → lf.getLast? ≠ some '\\') →
      t.drop i = chainTail rest →
      1 ≤ i →
      t[i - 1]? = some '\n' →
      eatContW t i acc = (acc ++ rest.flatten, t.length) := by
  intro rest
  induction rest with
  | nil => intro i acc hne; exact absurd rfl hne
  | cons f rest ih =>
    intro i acc _ hbf hlast hd hi hprev
    have hbff : breakFree f = true := hbf f (by simp)
    cases rest with
    | nil =>
      have hdf : t.drop i = f ++ '\n' :: [] := by simpa [chainTail] using hd
      have hlen : t.length - i = f.length + 1 := by
        have hh := congrArg List.length hdf
        rw [List.length_drop] at hh
        simpa using hh
      have hfn : find_newline (t.drop i) = some (f.length, 1) := by
        rw [hdf]
        exact find_newline_append f [] hbff
      have hfl : f.getLast? ≠ some '\\' := hlast f (by simp)
      have hnb : (t.take (i + f.length)).getLast? ≠ some '\\' := by
        rw [getLast?_take t (i + f.length) (by omega) (by omega)]
        by_cases hfe : f = []
        · subst hfe
          simp only [List.length_nil, Nat.add_zero]
          rw [hprev]
          simp
        · have hfl1 : 1 ≤ f.length := by
            cases f
            · exact absurd rfl hfe
            · simp
          have hx : t[i + f.length - 1]? = f[f.length - 1]? := by
            rw [show i + f.length - 1 = i + (f.length - 1) by omega,
              ← List.getElem?_drop, hdf]
            rw [List.getElem?_append, if_pos (by omega)]
          rw [hx, ← List.getLast?_eq_getElem?]
          exact hfl
      rw [eatContW_exit t i f.length 1 acc hfn hnb]
      have ht2 : (t.drop i).take f.length = f := by
        rw [hdf]
        exact List.take_left f _
      rw [ht2, show i + f.length + 1 = t.length by omega]
      simp [List.flatten_cons]
    | cons g rest2 =>
      have hdf : t.drop i = f ++ '\\' :: '\n' :: chainTail (g :: rest2) := by
        simpa [chainTail] using hd
      have hlen : t.length - i = f.length + 2 + (chainTail (g :: rest2)).length := by
        have hh := congrArg List.length hdf
        rw [List.length_drop] at hh
        simp at hh
        omega
      have hbf2 : breakFree (f ++ ['\\']) = true := by
        rw [breakFree_append, hbff]
        decide
      have hfn : find_newline (t.drop i) = some (f.length + 1, 1) := by
        rw [hdf, show f ++ '\\' :: '\n' :: chainTail (g :: rest2) =
          (f ++ ['\\']) ++ '\n' :: chainTail (g :: rest2) by simp]
        have hres := find_newline_append (f ++ ['\\'])
          (chainTail (g :: rest2)) hbf2
        simpa using hres
      have hbs : (t.take (i + (f.length + 1))).getLast? = some '\\' := by
        rw [getLast?_take t (i + (f.length + 1)) (by omega) (by omega)]
        rw [show i + (f.length + 1) - 1 = i + f.length by omega]
        rw [← List.getElem?_drop, hdf, List.getElem?_append,
          if_neg (by omega)]
        simp
      rw [eatContW_cont t i (f.length + 1) 1 acc hfn hbs]
      have hacc : (t.drop i).take (f.length + 1 - 1) = f := by
        rw [show f.length + 1 - 1 = f.length by omega, hdf]
        exact List.take_left f _
      rw [hacc]
      have hdrop : t.drop (i + (f.length + 1) + 1) = chainTail (g :: rest2) := by
        have hidx : i + (f.length + 1) + 1 = i + (f.length + 2) := by omega
        have hsplit : f ++ '\\' :: '\n' :: chainTail (g :: rest2) =
            (f ++ ['\\', '\n']) ++ chainTail (g :: rest2) := by simp
        have hlen2 : f.length + 2 = (f ++ ['\\', '\n']).length := by simp
        rw [hidx, ← List.drop_drop, hdf, hsplit, hlen2]
        exact List.drop_left _ _
      have hprev2 : t[i + (f.length + 1) + 1 - 1]? = some '\n' := by
        rw [show i + (f.length + 1) + 1 - 1 = i + (f.length + 1) by omega,
          ← List.getElem?_drop, hdf, List.getElem?_append,
          if_neg (by omega)]
        rw [show f.length + 1 - f.length = 1 by omega]
        simp
      have hrec := ih (i + (f.length + 1) + 1) (acc ++ f) (by simp)
        (fun x hx => hbf x (by simp [hx]))
        (fun lf hlf => hlast lf (by rw [List.getLast?_cons_cons]; exact hlf))
        hdrop (by omega) hprev2
      rw [hrec]
      simp [List.flatten_cons, List.append_assoc]

/-- C4 (amended): a chain of backslash-continued physical lines whose final
physical line is terminated by a line break is emitted as exactly one Logical
Line, equal to the concatenation of the fragments in order (each physical
line's content with its trailing backslash removed).  The case of an
unterminated final physical line is excluded: there the eat-loop drops the
remainder entirely (`c4_cex`). -/
theorem c4_continuation_chain (first : List Char) (rest : List (List Char))
    (hne : rest ≠ [])
    (hbf1 : breakFree first = true)
    (hbf : ∀ f ∈ rest, breakFree f = true)
    (hnc : startsWithChar '#' (trimStart (first ++ ['\\'])) = false)
    (hlast : ∀ lf, rest.getLast? = some lf → lf.getLast? ≠ some '\\') :
    linesRes (chainText first rest) = [first ++ rest.flatten] := by
  obtain ⟨t, ht⟩ : ∃ x, x = chainText first rest := ⟨_, rfl⟩
  rw [← ht]
  have htshape : t = (first ++ ['\\']) ++ '\n' :: chainTail rest := by
    rw [ht]
    simp [chainText]
  have hbf2 : breakFree (first ++ ['\\']) = true := by
    rw [breakFree_append, hbf1]
    decide
  have hctne : 1 ≤ (chainTail rest).length := by
    cases rest with
    | nil => exact absurd rfl hne
    | cons a as =>
      cases as with
      | nil => simp [chainTail]
      | cons b bs =>
        simp [chainTail]
        omega
  have htlen : t.length = first.length + 2 + (chainTail rest).length := by
    rw [htshape]
    simp
    omega
  have hfn : find_newline (t.drop 0) = some (first.length + 1, 1) := by
    rw [List.drop_zero, htshape]
    have hres := find_newline_append (first ++ ['\\']) (chainTail rest) hbf2
    simpa using hres
  have hg : (0 : Nat) ≠ wrapSub1 t.length := by
    unfold wrapSub1
    rw [if_neg (by omega)]
    omega
  have hts_ne : trimStart (first ++ ['\\']) ≠ [] :=
    trimStart_concat_nonws_ne first '\\' (by decide)
  have hcomment : startsWithChar '#' (trimStart (t.drop 0)) = false := by
    rw [List.drop_zero, htshape,
      trimStart_append_of_ne _ _ hts_ne,
      startsWithChar_append _ _ _ hts_ne]
    exact hnc
  have hblank : (rustTrim ((t.drop 0).take (first.length + 1))).isEmpty = false := by
    rw [List.drop_zero, htshape,
      show first.length + 1 = (first ++ ['\\']).length by simp,
      List.take_left]
    exact rustTrim_concat_nonws first '\\' (by decide)
  have hbs : (t.take (0 + (first.length + 1))).getLast? = some '\\' := by
    rw [Nat.zero_add, htshape,
      show first.length + 1 = (first ++ ['\\']).length by simp,
      List.take_left]
    exact List.getLast?_concat _
  have hnext := next_emit_cont t 0 (first.length + 1) 1 hg hfn hcomment hblank hbs
  have hacc : (t.drop 0).take (first.length + 1 - 1) = first := by
    rw [List.drop_zero, show first.length + 1 - 1 = first.length by omega,
      htshape,
      show (first ++ ['\\']) ++ '\n' :: chainTail rest =
        first ++ ('\\' :: '\n' :: chainTail rest) by simp]
    exact List.take_left first _
  rw [hacc] at hnext
  have hdrop : t.drop (0 + (first.length + 1) + 1) = chainTail rest := by
    rw [show 0 + (first.length + 1) + 1 = (first ++ ['\\', '\n']).length by simp,
      htshape,
      show (first ++ ['\\']) ++ '\n' :: chainTail rest =
        (first ++ ['\\', '\n']) ++ chainTail rest by simp]
    exact List.drop_left _ _
  have hprev : t[0 + (first.length + 1) + 1 - 1]? = some '\n' := by
    rw [show 0 + (first.length + 1) + 1 - 1 = (first ++ ['\\']).length by simp,
      htshape, List.getElem?_append, if_neg (by omega)]
    simp
  have hchain := eatContW_chain t rest (0 + (first.length + 1) + 1) first hne hbf
    hlast hdrop (by omega) hprev
  rw [hchain] at hnext
  have hlast0 : linesRes t = linesW t 0 := rfl
  rw [hlast0, linesW_unfold t 0, hnext]
  show (first ++ rest.flatten) :: linesW t t.length = [first ++ rest.flatten]
  have hstop : next t t.length = none := by
    have hdt : t.drop t.length = [] := List.drop_eq_nil_of_le (le_refl _)
    apply next_stop_final t t.length
    · unfold wrapSub1
      rw [if_neg (by omega)]
      omega
    · rw [hdt]
      rfl
    · right
      rw [hdt]
      rfl
  rw [linesW_unfold t t.length, hstop]

theorem c4_continuation_chain_witness :
    linesRes (chainText "a".toList ["b".toList, "c".toList]) =
      ["a".toList ++ (["b".toList, "c".toList] : List (List Char)).flatten] :=
  c4_continuation_chain "a".toList ["b".toList, "c".toList] (by simp)
    (by decide) (by decide) (by decide)
    (fun lf hlf => by
      simp at hlf
      subst hlf
      decide)

theorem fromStrGo_eq_mapExcept {E R : Type} (parse : List Char → Except E R) :
    ∀ (ls ss : List (List Char)), stripAll ls = some ss →
      fromStrGo parse ls = Except.ok (mapExcept parse ss) := by
  intro ls
  induction ls with
  | nil =>
    intro ss h
    obtain rfl : ss = [] := by simpa [stripAll] using h.symm
    rfl
  | cons l rest ih =>
    intro ss h
    rw [stripAll] at h
    cases hf : from_line l with
    | none => rw [hf] at h; exact absurd h (by simp)
    | some r =>
      rw [hf] at h
      cases hst : stripAll rest with
      | none => rw [hst] at h; exact absurd h (by simp)
      | some ss2 =>
        rw [hst] at h
        obtain rfl : ss = r.as_str :: ss2 := by simpa using h.symm
        cases hp : parse r.as_str with
        | error e =>
          simp only [fromStrGo, hf, hp, mapExcept]
        | ok v =>
          have hrec := ih ss2 hst
          cases hm : mapExcept parse ss2 with
          | error e =>
            rw [hm] at hrec
            simp only [fromStrGo, hf, hp, hrec, mapExcept, hm]
          | ok vs =>
            rw [hm] at hrec
            simp only [fromStrGo, hf, hp, hrec, mapExcept, hm]

theorem mapExcept_all_ok {E R : Type} (parse : List Char → Except E R) :
    ∀ (ss : List (List Char)), (∀ s ∈ ss, (parse s).isOk = true) →
      ∃ rs, mapExcept parse ss = Except.ok rs ∧
        List.Forall₂ (fun s r => parse s = Except.ok r) ss rs := by
  intro ss
  induction ss with
  | nil => exact fun _ => ⟨[], rfl, List.Forall₂.nil⟩
  | cons s rest ih =>
    intro hall
    have hs := hall s (by simp)
    cases hp : parse s with
    | error e =>
      rw [hp] at hs
      exact absurd hs (by simp [Except.isOk, Except.toBool])
    | ok v =>
      obtain ⟨rs, h1, h2⟩ := ih (fun x hx => hall x (by simp [hx]))
      refine ⟨v :: rs, ?_, List.Forall₂.cons hp h2⟩
      simp only [mapExcept, hp, h1]

theorem mapExcept_first_error {E R : Type} (parse : List Char → Except E R) :
    ∀ (ss : List (List Char)) (k : Nat) (e : E) (hk : k < ss.length),
      parse (ss.get ⟨k, hk⟩) = Except.error e →
      (∀ j (hj : j < k), (parse (ss.get ⟨j, by omega⟩)).isOk = true) →
      mapExcept parse ss = Except.error e := by
  intro ss
  induction ss with
  | nil => intro k e hk; exact absurd hk (by simp)
  | cons s rest ih =>
    intro k e hk hke hprev
    cases k with
    | zero =>
      have h0 : parse s = Except.error e := hke
      simp only [mapExcept, h0]
    | succ k2 =>
      have hs : (parse s).isOk = true := hprev 0 (by omega)
      cases hp : parse s with
      | error e2 =>
        rw [hp] at hs
        exact absurd hs (by simp [Except.isOk, Except.toBool])
      | ok v =>
        have hrec := ih k2 e (by simpa using hk) hke
          (fun j hj => hprev (j + 1) (by omega))
        simp only [mapExcept, hp, hrec]

/-- C6 (amended): provided trivia stripping panics on no logical line of the
manifest (hypothesis: `stripAll` succeeds, e.g. no logical line contains `#`
at positive offset), building the collection equals the reference fail-fast
fold `mapExcept` of the external parser over the clean-span strings in
manifest order: if the parser succeeds on every line, the result is the
ordered collection of all parsed entries; if some line fails while all
earlier lines succeed, the result is exactly that earliest error, propagated
verbatim, and no partial collection is returned.  When a line does make
`strip_trivia` panic, the panic preempts this contract (`c6_cex`). -/
theorem c6_fail_fast {E R : Type} (parse : List Char → Except E R)
    (text : List Char) (ss : List (List Char))
    (hs : stripAll (linesRes text) = some ss) :
    from_str parse text = Except.ok (mapExcept parse ss) ∧
    ((∀ s ∈ ss, (parse s).isOk = true) →
      ∃ rs, from_str parse text = Except.ok (Except.ok rs) ∧
        List.Forall₂ (fun s r => parse s = Except.ok r) ss rs) ∧
    ∀ (k : Nat) (e : E) (hk : k < ss.length),
      parse (ss.get ⟨k, hk⟩) = Except.error e →
      (∀ j (hj : j < k), (parse (ss.get ⟨j, by omega⟩)).isOk = true) →
      from_str parse text = Except.ok (Except.error e) := by
  have hmain : from_str parse text = Except.ok (mapExcept parse ss) :=
    fromStrGo_eq_mapExcept parse (linesRes text) ss hs
  refine ⟨hmain, fun hall => ?_, fun k e hk hke hprev => ?_⟩
  · obtain ⟨rs, h1, h2⟩ := mapExcept_all_ok parse ss hall
    exact ⟨rs, by rw [hmain, h1], h2⟩
  · rw [hmain, mapExcept_first_error parse ss k e hk hke hprev]

theorem c6_fail_fast_witness :
    from_str (fun s => if s = "b".toList
        then (Except.error 5 : Except Nat (List Char)) else Except.ok s)
      "a\nb\n".toList = Except.ok (Except.error 5) := by
  have h := c6_fail_fast
    (fun s => if s = "b".toList
      then (Except.error 5 : Except Nat (List Char)) else Except.ok s)
    "a\nb\n".toList ["a".toList, "b".toList] (by decide)
  exact h.2.2 1 5 (by decide) (by rfl)
    (fun j hj => by
      obtain rfl : j = 0 := by omega
      exact rfl)

theorem normEOL_cons_not_cr (c : Char) (rest : List Char) (hc : c ≠ '\r') :
    normEOL (c :: rest) = c :: normEOL rest := by
  rw [normEOL.eq_def]
  split <;> simp_all

theorem normEOL_crlf (rest : List Char) :
    normEOL ('\r' :: '\n' :: rest) = '\n' :: normEOL rest := rfl

theorem normEOL_cr_cons (rest : List Char) (h : rest.head? ≠ some '\n') :
    normEOL ('\r' :: rest) = '\n' :: normEOL rest := by
  rw [normEOL.eq_def]
  split
  · rename_i heq
    exact absurd heq (by simp)
  · rename_i r2 heq
    exfalso
    apply h
    rw [List.cons.injEq] at heq
    rw [heq.2]
    rfl
  · rename_i r2 hcond heq
    rw [List.cons.injEq] at heq
    rw [heq.2]
  · rename_i c2 r2 hcond1 hcond2 heq
    exfalso
    rw [List.cons.injEq] at heq
    exact hcond2 heq.1.symm

theorem normEOL_breakFree (s : List Char) (h : breakFree s = true) :
    normEOL s = s := by
  induction s with
  | nil => rfl
  | cons c cs ih =>
    rw [breakFree_iff] at h
    have hc := h c (by simp)
    rw [normEOL_cons_not_cr c cs hc.2]
    rw [ih (by rw [breakFree_iff]; exact fun x hx => h x (by simp [hx]))]

theorem normEOL_append_breakFree (a b : List Char) (h : breakFree a = true) :
    normEOL (a ++ b) = a ++ normEOL b := by
  induction a with
  | nil => rfl
  | cons c cs ih =>
    rw [breakFree_iff] at h
    have hc := h c (by simp)
    rw [List.cons_append, normEOL_cons_not_cr c _ hc.2]
    rw [ih (by rw [breakFree_iff]; exact fun x hx => h x (by simp [hx]))]
    rfl

theorem normEOL_eq_nil (s : List Char) (h : normEOL s = []) : s = [] := by
  induction s using normEOL.induct with
  | case1 => rfl
  | case2 rest ih => rw [normEOL_crlf] at h; exact absurd h (by simp)
  | case3 rest hcond ih =>
    rw [normEOL_cr_cons rest (by
      intro hx
      cases rest with
      | nil => simp at hx
      | cons a as =>
        apply hcond as
        rw [List.head?_cons] at hx
        rw [Option.some.inj hx])] at h
    exact absurd h (by simp)
  | case4 c rest hcond1 hcond2 ih =>
    rw [normEOL_cons_not_cr c rest (fun hx => hcond2 hx)] at h
    exact absurd h (by simp)

theorem normEOL_singleton_length (c : Char) : (normEOL [c]).length = 1 := by
  by_cases hc : c = '\r'
  · subst hc
    rfl
  · rw [normEOL_cons_not_cr c [] hc]
    rfl

theorem normEOL_length_one (s : List Char) (h : (normEOL s).length = 1) :
    (∃ c, s = [c]) ∨ s = ['\r', '\n'] := by
  induction s using normEOL.induct with
  | case1 =>
    rw [show normEOL ([] : List Char) = [] from rfl] at h
    simp at h
  | case2 rest ih =>
    rw [normEOL_crlf] at h
    simp at h
    rw [normEOL_eq_nil rest (by
      cases hx : normEOL rest with
      | nil => rfl
      | cons a as => rw [hx] at h; simp at h)]
    exact Or.inr rfl
  | case3 rest hcond ih =>
    have hhd : rest.head? ≠ some '\n' := by
      intro hx
      cases rest with
      | nil => simp at hx
      | cons a as =>
        apply hcond as
        rw [List.head?_cons] at hx
        rw [Option.some.inj hx]
    rw [normEOL_cr_cons rest hhd] at h
    simp at h
    rw [normEOL_eq_nil rest (by
      cases hx : normEOL rest with
      | nil => rfl
      | cons a as => rw [hx] at h; simp at h)]
    exact Or.inl ⟨'\r', rfl⟩
  | case4 c rest hcond1 hcond2 ih =>
    rw [normEOL_cons_not_cr c rest (fun hx => hcond2 hx)] at h
    simp at h
    rw [normEOL_eq_nil rest (by
      cases hx : normEOL rest with
      | nil => rfl
      | cons a as => rw [hx] at h; simp at h)]
    exact Or.inl ⟨c, rfl⟩

theorem guard_iff (t : List Char) (i : Nat) (hi : i ≤ t.length) :
    i = wrapSub1 t.length ↔ (t.drop i).length = 1 := by
  unfold wrapSub1 USIZE_MAX
  rw [List.length_drop]
  split <;> omega

theorem normEOL_decomp (s : List Char) (st ln : Nat)
    (h : find_newline s = some (st, ln)) :
    normEOL s = s.take st ++ '\n' :: normEOL (s.drop (st + ln)) := by
  obtain ⟨hlt, hbf, hln, hble, hcase⟩ := find_newline_some s st ln h
  have hsplit : s = s.take st ++ s.drop st := (List.take_append_drop st s).symm
  rcases hcase with ⟨hc, rfl⟩ | ⟨hc1, hc2, rfl⟩ | ⟨hc1, hc2, rfl⟩
  · have hdc : s.drop st = '\n' :: s.drop (st + 1) := by
      rw [← List.getElem_cons_drop s st hlt]
      have : s[st] = '\n' := by
        have := List.getElem?_eq_getElem hlt
        rw [this] at hc
        exact Option.some.inj hc
      rw [this]
    conv_lhs => rw [hsplit, hdc]
    rw [normEOL_append_breakFree _ _ hbf,
      normEOL_cons_not_cr '\n' _ (by decide)]
  · have hlt2 : st + 1 < s.length := by
      by_contra hx
      rw [List.getElem?_eq_none (by omega)] at hc2
      exact absurd hc2 (by simp)
    have hdc : s.drop st = '\r' :: '\n' :: s.drop (st + 2) := by
      rw [← List.getElem_cons_drop s st hlt]
      rw [show s[st] = '\r' from by
        have := List.getElem?_eq_getElem hlt
        rw [this] at hc1
        exact Option.some.inj hc1]
      rw [← List.getElem_cons_drop s (st + 1) hlt2]
      rw [show s[st + 1] = '\n' from by
        have := List.getElem?_eq_getElem hlt2
        rw [this] at hc2
        exact Option.some.inj hc2]
    conv_lhs => rw [hsplit, hdc]
    rw [normEOL_append_breakFree _ _ hbf, normEOL_crlf]
  · have hdc : s.drop st = '\r' :: s.drop (st + 1) := by
      rw [← List.getElem_cons_drop s st hlt]
      rw [show s[st] = '\r' from by
        have := List.getElem?_eq_getElem hlt
        rw [this] at hc1
        exact Option.some.inj hc1]
    have hhd : (s.drop (st + 1)).head? ≠ some '\n' := by
      rw [List.head?_eq_getElem?, List.getElem?_drop]
      exact hc2
    conv_lhs => rw [hsplit, hdc]
    rw [normEOL_append_breakFree _ _ hbf, normEOL_cr_cons _ hhd]

theorem find_newline_norm (s : List Char) (st ln : Nat)
    (h : find_newline s = some (st, ln)) :
    find_newline (normEOL s) = some (st, 1) := by
  obtain ⟨hlt, hbf, _, _, _⟩ := find_newline_some s st ln h
  rw [normEOL_decomp s st ln h]
  have := find_newline_append (s.take st) (normEOL (s.drop (st + ln))) hbf
  rw [this]
  rw [List.length_take]
  congr 2
  omega

theorem startsWithChar_trimStart_norm (s : List Char) :
    startsWithChar '#' (trimStart (normEOL s)) =
      startsWithChar '#' (trimStart s) := by
  induction s using normEOL.induct with
  | case1 => rfl
  | case2 rest ih =>
    rw [normEOL_crlf]
    unfold trimStart
    rw [List.dropWhile_cons, if_pos (by decide), List.dropWhile_cons,
      if_pos (by decide), List.dropWhile_cons, if_pos (by decide)]
    exact ih
  | case3 rest hcond ih =>
    have hhd : rest.head? ≠ some '\n' := by
      intro hx
      cases rest with
      | nil => simp at hx
      | cons a as =>
        apply hcond as
        rw [List.head?_cons] at hx
        rw [Option.some.inj hx]
    rw [normEOL_cr_cons rest hhd]
    unfold trimStart
    rw [List.dropWhile_cons, if_pos (by decide), List.dropWhile_cons,
      if_pos (by decide)]
    exact ih
  | case4 c rest hcond1 hcond2 ih =>
    rw [normEOL_cons_not_cr c rest (fun hx => hcond2 hx)]
    unfold trimStart
    by_cases hw : rustIsWhitespace c = true
    · rw [List.dropWhile_cons, if_pos hw, List.dropWhile_cons, if_pos hw]
      exact ih
    · rw [List.dropWhile_cons, if_neg hw, List.dropWhile_cons, if_neg hw]
      rfl

theorem norm_inv_step (t : List Char) (i j st ln : Nat)
    (hinv : (normEOL t).drop j = normEOL (t.drop i))
    (hfn : find_newline (t.drop i) = some (st, ln)) :
    (normEOL t).drop (j + st + 1) = normEOL (t.drop (i + st + ln)) := by
  obtain ⟨hlt, _, _, _, _⟩ := find_newline_some _ _ _ hfn
  have h1 : (normEOL t).drop (j + st + 1) = ((normEOL t).drop j).drop (st + 1) := by
    rw [List.drop_drop, Nat.add_assoc]
  have h2 : t.drop (i + st + ln) = (t.drop i).drop (st + ln) := by
    rw [List.drop_drop, Nat.add_assoc]
  rw [List.length_drop] at hlt
  rw [h1, h2, hinv, normEOL_decomp _ _ _ hfn,
    show (t.drop i).take st ++ '\n' :: normEOL ((t.drop i).drop (st + ln)) =
      ((t.drop i).take st ++ ['\n']) ++ normEOL ((t.drop i).drop (st + ln)) by simp]
  exact List.drop_left' (by
    rw [List.length_append, List.length_take, List.length_drop]
    simp
    omega)

theorem norm_inv_len (t : List Char) (i j st ln : Nat)
    (hinv : (normEOL t).drop j = normEOL (t.drop i))
    (hfn : find_newline (t.drop i) = some (st, ln)) :
    (normEOL t).length - j =
      st + 1 + (normEOL (t.drop (i + st + ln))).length := by
  obtain ⟨hlt, _, _, _, _⟩ := find_newline_some _ _ _ hfn
  have h2 : t.drop (i + st + ln) = (t.drop i).drop (st + ln) := by
    rw [List.drop_drop, Nat.add_assoc]
  have hh := congrArg List.length (hinv.trans (normEOL_decomp _ _ _ hfn))
  rw [List.length_drop, List.length_append, List.length_take,
    List.length_cons] at hh
  rw [h2]
  omega

theorem break_last_char (t : List Char) (i st ln : Nat)
    (hfn : find_newline (t.drop i) = some (st, ln)) :
    t[i + st + ln - 1]? = some '\n' ∨ t[i + st + ln - 1]? = some '\r' := by
  obtain ⟨_, _, hln, _, hcase⟩ := find_newline_some _ _ _ hfn
  rcases hcase with ⟨hc, rfl⟩ | ⟨hc1, hc2, rfl⟩ | ⟨hc1, hc2, rfl⟩
  · left
    rw [show i + st + 1 - 1 = i + st by omega, ← List.getElem?_drop]
    exact hc
  · left
    rw [show i + st + 2 - 1 = i + (st + 1) by omega, ← List.getElem?_drop]
    exact hc2
  · right
    rw [show i + st + 1 - 1 = i + st by omega, ← List.getElem?_drop]
    exact hc1

theorem eatCont_norm (t : List Char) :
    ∀ (d i j : Nat) (acc : List Char),
      t.length - i ≤ d →
      i ≤ t.length → j ≤ (normEOL t).length →
      (normEOL t).drop j = normEOL (t.drop i) →
      1 ≤ i → 1 ≤ j →
      t[i - 1]? ≠ some '\\' → (normEOL t)[j - 1]? ≠ some '\\' →
      ∃ res i2 j2,
        eatContW t i acc = (res, i2) ∧
        eatContW (normEOL t) j acc = (res, j2) ∧
        i2 ≤ t.length ∧ j2 ≤ (normEOL t).length ∧
        (normEOL t).drop j2 = normEOL (t.drop i2) := by
  intro d
  induction d with
  | zero =>
    intro i j acc hd hi hj hinv hi1 hj1 hp1 hp2
    have hdt : t.drop i = [] := List.drop_eq_nil_of_le (by omega)
    have hdn : (normEOL t).drop j = [] := by rw [hinv, hdt]; rfl
    refine ⟨acc, i, j, ?_, ?_, hi, hj, hinv⟩
    · exact eatContW_stop t i acc (by rw [hdt]; rfl)
    · exact eatContW_stop _ j acc (by rw [hdn]; rfl)
  | succ d ih =>
    intro i j acc hd hi hj hinv hi1 hj1 hp1 hp2
    cases hfn : find_newline (t.drop i) with
    | none =>
      have hbf : breakFree (t.drop i) = true := (find_newline_none_iff _).mp hfn
      have heq : (normEOL t).drop j = t.drop i := by
        rw [hinv, normEOL_breakFree _ hbf]
      exact ⟨acc, i, j, eatContW_stop t i acc hfn,
        eatContW_stop _ j acc (by rw [heq]; exact hfn), hi, hj, hinv⟩
    | some sl =>
      obtain ⟨st, ln⟩ := sl
      obtain ⟨hlt, hbfp, hln, hble, _⟩ := find_newline_some _ _ _ hfn
      rw [List.length_drop] at hlt hble
      have hfn2 : find_newline ((normEOL t).drop j) = some (st, 1) := by
        rw [hinv]
        exact find_newline_norm _ _ _ hfn
      have hlenn := norm_inv_len t i j st ln hinv hfn
      have hinv2 := norm_inv_step t i j st ln hinv hfn
      have htake : ((normEOL t).drop j).take st = (t.drop i).take st := by
        rw [hinv, normEOL_decomp _ _ _ hfn]
        exact List.take_left' (by
          rw [List.length_take, List.length_drop]
          omega)
      have hprevn : (normEOL t)[j + st]? = some '\n' := by
        rw [← List.getElem?_drop, hinv, normEOL_decomp _ _ _ hfn,
          List.getElem?_append,
          if_neg (by rw [List.length_take, List.length_drop]; omega)]
        rw [show st - ((t.drop i).take st).length = 0 from by
          rw [List.length_take, List.length_drop]
          omega]
        simp
      have hprevt := break_last_char t i st ln hfn
      by_cases hbs : (t.take (i + st)).getLast? = some '\\'
      · have hst1 : 1 ≤ st := by
          by_contra hx
          have h0 : st = 0 := by omega
          rw [h0, Nat.add_zero, getLast?_take t i hi1 hi] at hbs
          exact hp1 hbs
        have hbsn : ((normEOL t).take (j + st)).getLast? = some '\\' := by
          rw [getLast?_take_drop _ j st hst1 (by omega),
            htake, ← getLast?_take_drop t i st hst1 (by omega)]
          exact hbs
        have haccn : ((normEOL t).drop j).take (st - 1) = (t.drop i).take (st - 1) := by
          rw [show ((normEOL t).drop j).take (st - 1) =
              (((normEOL t).drop j).take st).take (st - 1) from by
            rw [List.take_take]
            congr 1
            omega,
            htake, List.take_take]
          congr 1
          omega
        have hrec := ih (i + st + ln) (j + st + 1) (acc ++ (t.drop i).take (st - 1))
          (by omega) (by omega) (by omega) hinv2 (by omega) (by omega)
          (by
            rcases hprevt with hx | hx <;>
              · intro hcontra
                rw [hx] at hcontra
                exact absurd hcontra (by decide))
          (by
            intro hcontra
            rw [show j + st + 1 - 1 = j + st by omega, hprevn] at hcontra
            exact absurd hcontra (by decide))
        obtain ⟨res, i2, j2, he1, he2, hb1, hb2, hb3⟩ := hrec
        refine ⟨res, i2, j2, ?_, ?_, hb1, hb2, hb3⟩
        · rw [eatContW_cont t i st ln acc hfn hbs]
          exact he1
        · rw [eatContW_cont (normEOL t) j st 1 acc hfn2 hbsn, haccn]
          exact he2
      · have hbsn : ((normEOL t).take (j + st)).getLast? ≠ some '\\' := by
          cases Nat.eq_zero_or_pos st with
          | inl h0 =>
            subst h0
            rw [Nat.add_zero, getLast?_take _ j hj1 hj]
            exact hp2
          | inr hpos =>
            rw [getLast?_take_drop _ j st hpos (by omega),
              htake, ← getLast?_take_drop t i st hpos (by omega)]
            exact hbs
        refine ⟨acc ++ (t.drop i).take st, i + st + ln, j + st + 1,
          eatContW_exit t i st ln acc hfn hbs, ?_, by omega, by omega, hinv2⟩
        rw [eatContW_exit (normEOL t) j st 1 acc hfn2 hbsn, htake]

theorem next_norm (t : List Char) :
    ∀ (d i j : Nat),
      t.length - i ≤ d →
      i ≤ t.length → j ≤ (normEOL t).length →
      (normEOL t).drop j = normEOL (t.drop i) →
      (next t i = none ∧ next (normEOL t) j = none) ∨
      (∃ l i2 j2, next t i = some (l, i2) ∧ next (normEOL t) j = some (l, j2) ∧
        i2 ≤ t.length ∧ j2 ≤ (normEOL t).length ∧
        (normEOL t).drop j2 = normEOL (t.drop i2)) := by
  intro d
  induction d with
  | zero =>
    intro i j hd hi hj hinv
    left
    have hdt : t.drop i = [] := List.drop_eq_nil_of_le (by omega)
    have hdn : (normEOL t).drop j = [] := by rw [hinv, hdt]; rfl
    constructor
    · by_cases hg : i = wrapSub1 t.length
      · exact next_guard t i hg
      · exact next_stop_final t i hg (by rw [hdt]; rfl)
          (Or.inr (by rw [hdt]; rfl))
    · by_cases hg : j = wrapSub1 (normEOL t).length
      · exact next_guard _ j hg
      · exact next_stop_final _ j hg (by rw [hdn]; rfl)
          (Or.inr (by rw [hdn]; rfl))
  | succ d ih =>
    intro i j hd hi hj hinv
    by_cases hg : i = wrapSub1 t.length
    · left
      have h1 : (t.drop i).length = 1 := (guard_iff t i hi).mp hg
      obtain ⟨c, hc⟩ := List.length_eq_one.mp h1
      have h2 : ((normEOL t).drop j).length = 1 := by
        rw [hinv, hc]
        exact normEOL_singleton_length c
      exact ⟨next_guard t i hg, next_guard _ j ((guard_iff _ j hj).mpr h2)⟩
    · by_cases hgn : j = wrapSub1 (normEOL t).length
      · left
        have h2 : ((normEOL t).drop j).length = 1 := (guard_iff _ j hj).mp hgn
        rw [hinv] at h2
        rcases normEOL_length_one _ h2 with ⟨c, hc⟩ | hc
        · exfalso
          exact hg ((guard_iff t i hi).mpr (by rw [hc]; rfl))
        · refine ⟨?_, next_guard _ j hgn⟩
          have hfn : find_newline (t.drop i) = some (0, 2) := by
            rw [hc]
            decide
          have hcm : startsWithChar '#' (trimStart (t.drop i)) = false := by
            rw [hc]
            decide
          have hbl : (rustTrim ((t.drop i).take 0)).isEmpty = true := by
            rw [hc]
            decide
          rw [next_skip_blank t i 0 2 hg hfn hcm hbl]
          have hlen2 : t.length - i = 2 := by
            have hh := congrArg List.length hc
            rw [List.length_drop] at hh
            simpa using hh
          have hd2 : t.drop (i + 0 + 2) = [] := List.drop_eq_nil_of_le (by omega)
          by_cases hg2 : i + 0 + 2 = wrapSub1 t.length
          · exact next_guard t _ hg2
          · exact next_stop_final t _ hg2 (by rw [hd2]; rfl)
              (Or.inr (by rw [hd2]; rfl))
      · cases hfn : find_newline (t.drop i) with
        | none =>
          have hbf : breakFree (t.drop i) = true := (find_newline_none_iff _).mp hfn
          have heq : (normEOL t).drop j = t.drop i := by
            rw [hinv, normEOL_breakFree _ hbf]
          have hfn2 : find_newline ((normEOL t).drop j) = none := by
            rw [heq]
            exact hfn
          by_cases hcm : startsWithChar '#' (trimStart (t.drop i)) = true
          · exact Or.inl ⟨next_stop_final t i hg hfn (Or.inl hcm),
              next_stop_final _ j hgn hfn2 (Or.inl (by rw [heq]; exact hcm))⟩
          · by_cases hbl : (rustTrim (t.drop i)).isEmpty = true
            · exact Or.inl ⟨next_stop_final t i hg hfn (Or.inr hbl),
                next_stop_final _ j hgn hfn2 (Or.inr (by rw [heq]; exact hbl))⟩
            · right
              have hne : t.drop i ≠ [] := by
                intro hx
                rw [hx] at hbl
                exact hbl rfl
              have hilt : i < t.length := by
                by_contra hx
                exact hne (List.drop_eq_nil_of_le (by omega))
              have hlenrel : (normEOL t).length - j = t.length - i := by
                have hh := congrArg List.length heq
                rw [List.length_drop, List.length_drop] at hh
                exact hh
              have hjlt : j < (normEOL t).length := by omega
              have he1 := next_emit_final t i hg hfn
                (eq_false_of_ne_true hcm) (eq_false_of_ne_true hbl)
              have he2 := next_emit_final (normEOL t) j hgn hfn2
                (by rw [heq]; exact eq_false_of_ne_true hcm)
                (by rw [heq]; exact eq_false_of_ne_true hbl)
              have hw1 : wrapSub1 t.length = t.length - 1 := by
                unfold wrapSub1
                rw [if_neg (by omega)]
              have hw2 : wrapSub1 (normEOL t).length = (normEOL t).length - 1 := by
                unfold wrapSub1
                rw [if_neg (by omega)]
              refine ⟨t.drop i, wrapSub1 t.length, wrapSub1 (normEOL t).length,
                he1, by rw [he2, heq], by rw [hw1]; omega, by rw [hw2]; omega, ?_⟩
              rw [hw1, hw2]
              have hstep1 : t.drop (t.length - 1) =
                  (t.drop i).drop (t.length - i - 1) := by
                rw [List.drop_drop]
                congr 1
                omega
              have hstep2 : (normEOL t).drop ((normEOL t).length - 1) =
                  ((normEOL t).drop j).drop (t.length - i - 1) := by
                rw [List.drop_drop]
                congr 1
                omega
              rw [hstep1, hstep2, heq]
              rw [normEOL_breakFree]
              rw [breakFree_iff] at hbf ⊢
              intro c hc2
              exact hbf c (List.mem_of_mem_drop hc2)
        | some sl =>
          obtain ⟨st, ln⟩ := sl
          obtain ⟨hlt, hbfp, hln, hble, _⟩ := find_newline_some _ _ _ hfn
          rw [List.length_drop] at hlt hble
          have hfn2 : find_newline ((normEOL t).drop j) = some (st, 1) := by
            rw [hinv]
            exact find_newline_norm _ _ _ hfn
          have hlenn := norm_inv_len t i j st ln hinv hfn
          have hinv2 := norm_inv_step t i j st ln hinv hfn
          have htake : ((normEOL t).drop j).take st = (t.drop i).take st := by
            rw [hinv, normEOL_decomp _ _ _ hfn]
            exact List.take_left' (by
              rw [List.length_take, List.length_drop]
              omega)
          have hcm_eq : startsWithChar '#' (trimStart ((normEOL t).drop j)) =
              startsWithChar '#' (trimStart (t.drop i)) := by
            rw [hinv]
            exact startsWithChar_trimStart_norm (t.drop i)
          by_cases hcm : startsWithChar '#' (trimStart (t.drop i)) = true
          · have hs1 := next_skip_comment t i st ln hg hfn hcm
            have hs2 := next_skip_comment (normEOL t) j st 1 hgn hfn2
              (by rw [hcm_eq]; exact hcm)
            have hrec := ih (i + st + ln) (j + st + 1) (by omega) (by omega)
              (by omega) hinv2
            rw [← hs1, ← hs2] at hrec
            exact hrec
          · have hbl_n : (rustTrim (((normEOL t).drop j).take st)).isEmpty =
                (rustTrim ((t.drop i).take st)).isEmpty := by
              rw [htake]
            by_cases hbl : (rustTrim ((t.drop i).take st)).isEmpty = true
            · have hs1 := next_skip_blank t i st ln hg hfn
                (eq_false_of_ne_true hcm) hbl
              have hs2 := next_skip_blank (normEOL t) j st 1 hgn hfn2
                (by rw [hcm_eq]; exact eq_false_of_ne_true hcm)
                (by rw [hbl_n]; exact hbl)
              have hrec := ih (i + st + ln) (j + st + 1) (by omega) (by omega)
                (by omega) hinv2
              rw [← hs1, ← hs2] at hrec
              exact hrec
            · have hst1 : 1 ≤ st := by
                by_contra hx
                have h0 : st = 0 := by omega
                rw [h0] at hbl
                exact hbl rfl
              have hlast_eq : ((normEOL t).take (j + st)).getLast? =
                  (t.take (i + st)).getLast? := by
                rw [getLast?_take_drop _ j st hst1 (by omega), htake,
                  ← getLast?_take_drop t i st hst1 (by omega)]
              by_cases hbs : (t.take (i + st)).getLast? = some '\\'
              · right
                have he1 := next_emit_cont t i st ln hg hfn
                  (eq_false_of_ne_true hcm) (eq_false_of_ne_true hbl) hbs
                have he2 := next_emit_cont (normEOL t) j st 1 hgn hfn2
                  (by rw [hcm_eq]; exact eq_false_of_ne_true hcm)
                  (by rw [hbl_n]; exact eq_false_of_ne_true hbl)
                  (by rw [hlast_eq]; exact hbs)
                have haccn : ((normEOL t).drop j).take (st - 1) =
                    (t.drop i).take (st - 1) := by
                  rw [show ((normEOL t).drop j).take (st - 1) =
                      (((normEOL t).drop j).take st).take (st - 1) from by
                    rw [List.take_take]
                    congr 1
                    omega,
                    htake, List.take_take]
                  congr 1
                  omega
                have hprevn : (normEOL t)[j + st]? = some '\n' := by
                  rw [← List.getElem?_drop, hinv, normEOL_decomp _ _ _ hfn,
                    List.getElem?_append,
                    if_neg (by rw [List.length_take, List.length_drop]; omega)]
                  rw [show st - ((t.drop i).take st).length = 0 from by
                    rw [List.length_take, List.length_drop]
                    omega]
                  simp
                have hprevt := break_last_char t i st ln hfn
                obtain ⟨res, i2, j2, hc1, hc2, hb1, hb2, hb3⟩ :=
                  eatCont_norm t d (i + st + ln) (j + st + 1)
                    ((t.drop i).take (st - 1))
                    (by omega) (by omega) (by omega) hinv2 (by omega) (by omega)
                    (by
                      rcases hprevt with hx | hx <;>
                        · intro hcontra
                          rw [hx] at hcontra
                          exact absurd hcontra (by decide))
                    (by
                      intro hcontra
                      rw [show j + st + 1 - 1 = j + st by omega, hprevn] at hcontra
                      exact absurd hcontra (by decide))
                refine ⟨res, i2, j2, ?_, ?_, hb1, hb2, hb3⟩
                · rw [he1, hc1]
                · rw [he2, haccn, hc2]
              · right
                have he1 := next_emit_simple t i st ln hg hfn
                  (eq_false_of_ne_true hcm) (eq_false_of_ne_true hbl) hbs
                have he2 := next_emit_simple (normEOL t) j st 1 hgn hfn2
                  (by rw [hcm_eq]; exact eq_false_of_ne_true hcm)
                  (by rw [hbl_n]; exact eq_false_of_ne_true hbl)
                  (by rw [hlast_eq]; exact hbs)
                exact ⟨(t.drop i).take st, i + st + ln, j + st + 1,
                  he1, by rw [he2, htake], by omega, by omega, hinv2⟩

theorem linesW_norm (t : List Char) :
    ∀ (d i j : Nat),
      t.length - i ≤ d →
      i ≤ t.length → j ≤ (normEOL t).length →
      (normEOL t).drop j = normEOL (t.drop i) →
      linesW t i = linesW (normEOL t) j := by
  intro d
  induction d with
  | zero =>
    intro i j hd hi hj hinv
    rcases next_norm t 0 i j (by omega) hi hj hinv with
      ⟨h1, h2⟩ | ⟨l, i2, j2, h1, h2, hb1, hb2, hb3⟩
    · rw [linesW_unfold t i, h1, linesW_unfold _ j, h2]
    · exfalso
      obtain ⟨hlt2, -⟩ := next_lt t i l i2 h1
      omega
  | succ d ih =>
    intro i j hd hi hj hinv
    rcases next_norm t (d + 1) i j hd hi hj hinv with
      ⟨h1, h2⟩ | ⟨l, i2, j2, h1, h2, hb1, hb2, hb3⟩
    · rw [linesW_unfold t i, h1, linesW_unfold _ j, h2]
    · obtain ⟨hlt2, -⟩ := next_lt t i l i2 h1
      rw [linesW_unfold t i, h1, linesW_unfold _ j, h2]
      show l :: linesW t i2 = l :: linesW (normEOL t) j2
      rw [ih i2 j2 (by omega) hb1 hb2 hb3]

/-- C9: line-ending normalization commutes with the Line Splitter: replacing
every line break (a `"\r\n"` pair or a bare `'\r'`) by `'\n'` yields a
manifest that the splitter turns into the identical sequence of Logical Line
contents. -/
theorem c9_line_ending_equiv (t : List Char) :
    linesRes (normEOL t) = linesRes t :=
  (linesW_norm t t.length 0 0 (by omega) (by omega) (by omega)
    (by rw [List.drop_zero, List.drop_zero])).symm

example : strip_trivia "flask==2.0".toList = some 10 := by decide
example : strip_trivia "a #".toList = none := by decide
example : strip_trivia "# ".toList = some 0 := by decide
example : linesRes "flask==2.0".toList = ["flask==2.0".toList] := by decide
example : linesRes "a".toList = [] := by decide
example : linesRes "a\\\nb".toList = [['a']] := by decide
example : linesRes "# x \\\nbar\n".toList = ["bar".toList] := by decide
example : linesRes "# c\n\n   \n".toList = [] := by decide
example : linesRes "a\\\nb\\\nc\n".toList = ["abc".toList] := by decide
example : linesRes "a\r\nb\rc\n".toList = [['a'], ['b'], ['c']] := by decide
